import Mathlib

/-!
# redsvd: randomized SVD, symmetric eigendecomposition, PCA and matrix readers

A shallow embedding of `src/src/redsvd.hpp` (classes `RedSVD`, `RedSymEigen`,
`RedPCA`) and of `src/trunk/src/redsvdFile.cpp` (`convertFV2Mat`, `readLine`,
the dense `readMatrix`), followed by theorems about them.

Conventions.
* A dense Eigen matrix is a shape together with an entry function; only the
  entries inside the shape are meaningful.
* Operations of the Eigen library whose precondition can fail (a product of
  mismatched shapes, a negative dimension) return `Option`.
* The scalar type is a parameter `K`; the theorems about exact arithmetic
  instantiate it with the real numbers and `Real.sqrt`.
-/

set_option linter.unusedSectionVars false

namespace REDSVD

/-! ## Dense matrices and vectors (Eigen::MatrixXf, Eigen::VectorXf) -/

/-- Dense matrix with run-time shape: `val i j` is the coefficient `(i, j)`. -/
structure Mat (α : Type) where
  rows : Nat
  cols : Nat
  val : Nat → Nat → α

/-- Dense vector with run-time length. -/
structure Vec (α : Type) where
  size : Nat
  val : Nat → α

/-- Default-constructed `MatrixXf`: the 0×0 matrix. -/
def Mat.empty {α : Type} [Zero α] : Mat α := ⟨0, 0, fun _ _ => 0⟩

/-- Default-constructed `VectorXf`: the vector of length 0. -/
def Vec.empty {α : Type} [Zero α] : Vec α := ⟨0, fun _ => 0⟩

section Algebra

variable {K : Type} [Field K]

/-- Result of `A.transpose()`. -/
def Mat.transpose (A : Mat K) : Mat K := ⟨A.cols, A.rows, fun i j => A.val j i⟩

/-- Coefficients of a matrix product with inner dimension `k`. -/
def mulVal (k : Nat) (f g : Nat → Nat → K) : Nat → Nat → K :=
  fun i j => ∑ x in Finset.range k, f i x * g x j

/-- Matrix product on operands whose shapes are known to agree. -/
def Mat.mul (A B : Mat K) : Mat K := ⟨A.rows, B.cols, mulVal A.cols A.val B.val⟩

/-- Eigen product `A * B`: defined only when `A.cols() == B.rows()`. -/
def Mat.mul? (A B : Mat K) : Option (Mat K) :=
  if A.cols = B.rows then some (A.mul B) else none

/-- Result of `S.asDiagonal()`: the square matrix with `S` on its diagonal. -/
def Vec.asDiagonal (S : Vec K) : Mat K :=
  ⟨S.size, S.size, fun i j => if i = j then S.val j else 0⟩

/-- Constructor `MatrixXf x(rows, cols)` with a possibly negative column
count computed in `int`: Eigen requires both dimensions to be non-negative. -/
def Mat.sized? (rows : Nat) (cols : Int) : Option (Mat K) :=
  if cols < 0 then none else some ⟨rows, cols.toNat, fun _ _ => 0⟩

/-- Modelled from the spec: `sampleGaussianMat` (declared in `redsvd.hpp`, its
body is not among the sources) fills every entry of the pre-sized matrix `x`
with an independent sample and leaves the shape alone. The samples drawn by one
call are the entry function `g`. -/
def sampleGaussianMat (g : Nat → Nat → K) (x : Mat K) : Mat K := ⟨x.rows, x.cols, g⟩

/-! ### Orthonormalizer -/

/-- Dot product of columns `a` and `b` of an `m`-row coefficient array. -/
def dotCols (m : Nat) (f : Nat → Nat → K) (a b : Nat) : K :=
  ∑ i in Finset.range m, f i a * f i b

/-- Modelled from the spec: one projection of `processGramSchmidt`, which
removes from column `j` its component along column `k`. -/
def projectOut (m : Nat) (f : Nat → Nat → K) (j k : Nat) : Nat → Nat → K :=
  fun i c => if c = j then f i j - dotCols m f j k * f i k else f i c

/-- Modelled from the spec: one sweep of `processGramSchmidt` over the already
processed columns `0..j-1`, in order. -/
def sweep (m : Nat) (f : Nat → Nat → K) (j : Nat) : Nat → Nat → K :=
  (List.range j).foldl (fun g k => projectOut m g j k) f

/-- Modelled from the spec: the residual of column `j` in `processGramSchmidt`,
obtained by projecting out columns `0..j-1` twice in succession. -/
def residual (m : Nat) (f : Nat → Nat → K) (j : Nat) : Nat → Nat → K :=
  sweep m (sweep m f j) j

/-- Modelled from the spec: the normalisation of column `j` to unit length in
`processGramSchmidt`; `sqrt` is the square root of the scalar type. -/
def normalizeCol (sqrt : K → K) (m : Nat) (f : Nat → Nat → K) (j : Nat) : Nat → Nat → K :=
  fun i c => if c = j then f i j / sqrt (dotCols m f j j) else f i c

/-- Modelled from the spec: the body of the column loop of `processGramSchmidt`. -/
def gsColumn (sqrt : K → K) (m : Nat) (f : Nat → Nat → K) (j : Nat) : Nat → Nat → K :=
  normalizeCol sqrt m (residual m f j) j

/-- Modelled from the spec: the column loop of `processGramSchmidt` run over the
first `c` columns. -/
def gsLoop (sqrt : K → K) (m : Nat) (f : Nat → Nat → K) (c : Nat) : Nat → Nat → K :=
  (List.range c).foldl (fun g j => gsColumn sqrt m g j) f

/-- Modelled from the spec: `processGramSchmidt` (declared in `redsvd.hpp`, its
body is not among the sources). Modified Gram-Schmidt in place: for each column
from first to last, project out the earlier columns twice, then normalise. -/
def processGramSchmidt (sqrt : K → K) (M : Mat K) : Mat K :=
  ⟨M.rows, M.cols, gsLoop sqrt M.rows M.val M.cols⟩

/-- The residual of column `j`, as met by `processGramSchmidt` on `M`. -/
def gsResidual (sqrt : K → K) (M : Mat K) (j : Nat) : Nat → Nat → K :=
  residual M.rows (gsLoop sqrt M.rows M.val j) j

/-- No column of `M` has a zero residual during `processGramSchmidt`. -/
def NoZeroResidual (sqrt : K → K) (M : Mat K) : Prop :=
  ∀ j, j < M.cols → ∃ i, i < M.rows ∧ gsResidual sqrt M j i j ≠ 0

/-! ### Exact solvers of the Eigen library -/

/-- Output of `Eigen::SVD<MatrixXf>`: `matrixU()`, `singularValues()`, `matrixV()`. -/
structure SVDOut (K : Type) where
  U : Mat K
  S : Vec K
  V : Mat K

/-- Coefficients computed by `Eigen::SVD` for a given matrix. -/
structure SVDCoeffs (K : Type) where
  u : Nat → Nat → K
  s : Nat → K
  v : Nat → Nat → K

/-- Constructor `Eigen::SVD<MatrixXf> svdOfC(C)`: the library allocates `U` as
`rows × min(rows, cols)`, the singular values with length `min(rows, cols)` and
`V` as `cols × cols`, and fills them with the coefficients it computes. -/
def eigenSVD (svd : Mat K → SVDCoeffs K) (C : Mat K) : SVDOut K :=
  ⟨⟨C.rows, min C.rows C.cols, (svd C).u⟩, ⟨min C.rows C.cols, (svd C).s⟩,
   ⟨C.cols, C.cols, (svd C).v⟩⟩

/-- Output of `Eigen::SelfAdjointEigenSolver<MatrixXf>`. -/
structure EigOut (K : Type) where
  eigenvalues : Vec K
  eigenvectors : Mat K

/-- Coefficients computed by `SelfAdjointEigenSolver` for a given matrix. -/
structure EigCoeffs (K : Type) where
  values : Nat → K
  vectors : Nat → Nat → K

/-- Constructor `SelfAdjointEigenSolver<MatrixXf> eigenOfB(B)`: eigenvalues of
length `cols`, eigenvectors `rows × cols`. -/
def eigenSolver (eig : Mat K → EigCoeffs K) (B : Mat K) : EigOut K :=
  ⟨⟨B.cols, (eig B).values⟩, ⟨B.rows, B.cols, (eig B).vectors⟩⟩

/-! ## RedSVD -/

/-- Effective rank `r` computed by `run`: two conditional expressions in `int`. -/
def effRank (rank : Int) (rows cols : Nat) : Int :=
  let r : Int := if rank < (cols : Int) then rank else (cols : Int)
  if r < (rows : Int) then r else (rows : Int)

/-- Result state of a `RedSVD` object. -/
structure RedSVD (K : Type) where
  matU_ : Mat K
  matS_ : Vec K
  matV_ : Mat K

/-- Default constructor `RedSVD()`. -/
def RedSVD.init : RedSVD K := ⟨Mat.empty, Vec.empty, Mat.empty⟩

/-- Method `RedSVD::run(A, rank)`. `gO` and `gP` are the samples drawn by the two
calls of `sampleGaussianMat`, `svd` gives the coefficients computed by
`Eigen::SVD`. The result is the state of the object after the call, `none` when
a library precondition fails. -/
def RedSVD.run (sqrt : K → K) (svd : Mat K → SVDCoeffs K) (gO gP : Nat → Nat → K)
    (self : RedSVD K) (A : Mat K) (rank : Int) : Option (RedSVD K) :=
  if A.cols = 0 ∨ A.rows = 0 then some self else
  let r := effRank rank A.rows A.cols
  (Mat.sized? A.rows r).bind fun O0 =>
  let O := sampleGaussianMat gO O0
  (A.transpose.mul? O).bind fun Y0 =>
  let Y := processGramSchmidt sqrt Y0
  (A.mul? Y).bind fun B =>
  (Mat.sized? B.cols r).bind fun P0 =>
  let P := sampleGaussianMat gP P0
  (B.mul? P).bind fun Z0 =>
  let Z := processGramSchmidt sqrt Z0
  (Z.transpose.mul? B).bind fun C =>
  let svdOfC := eigenSVD svd C
  (Z.mul? svdOfC.U).bind fun U =>
  (Y.mul? svdOfC.V).bind fun V =>
  some ⟨U, svdOfC.S, V⟩

/-! ## RedSymEigen -/

/-- Result state of a `RedSymEigen` object. -/
structure RedSymEigen (K : Type) where
  eigenValues_ : Vec K
  eigenVectors_ : Mat K

/-- Default constructor `RedSymEigen()`. -/
def RedSymEigen.init : RedSymEigen K := ⟨Vec.empty, Mat.empty⟩

/-- Method `RedSymEigen::run(A, rank)`; `eig` gives the coefficients computed by
`SelfAdjointEigenSolver`. -/
def RedSymEigen.run (sqrt : K → K) (eig : Mat K → EigCoeffs K) (gO : Nat → Nat → K)
    (self : RedSymEigen K) (A : Mat K) (rank : Int) : Option (RedSymEigen K) :=
  if A.cols = 0 ∨ A.rows = 0 then some self else
  let r := effRank rank A.rows A.cols
  (Mat.sized? A.rows r).bind fun O0 =>
  let O := sampleGaussianMat gO O0
  (A.transpose.mul? O).bind fun Y0 =>
  let Y := processGramSchmidt sqrt Y0
  (Y.transpose.mul? A).bind fun YtA =>
  (YtA.mul? Y).bind fun B =>
  let eigenOfB := eigenSolver eig B
  (Y.mul? eigenOfB.eigenvectors).bind fun V =>
  some ⟨eigenOfB.eigenvalues, V⟩

/-! ## RedPCA -/

/-- Result state of a `RedPCA` object. -/
structure RedPCA (K : Type) where
  principalComponents_ : Mat K
  scores_ : Mat K

/-- Default constructor `RedPCA()`. -/
def RedPCA.init : RedPCA K := ⟨Mat.empty, Mat.empty⟩

/-- Method `RedPCA::run(A, rank)`: a local `RedSVD` is default-constructed and
run, then both members are assigned from it. -/
def RedPCA.run (sqrt : K → K) (svd : Mat K → SVDCoeffs K) (gO gP : Nat → Nat → K)
    (_self : RedPCA K) (A : Mat K) (rank : Int) : Option (RedPCA K) :=
  (RedSVD.run sqrt svd gO gP RedSVD.init A rank).bind fun redsvd =>
  let S := redsvd.matS_
  (redsvd.matU_.mul? S.asDiagonal).bind fun sc =>
  some ⟨redsvd.matV_, sc⟩

/-- Scores in the words of the specification: column `j` of `U` multiplied by
`S[j]`. -/
def specScores (U : Mat K) (S : Vec K) : Mat K :=
  ⟨U.rows, U.cols, fun i j => U.val i j * S.val j⟩

/-! ### Intermediate matrices of the pipeline and matrix predicates -/

/-- Effective rank as a dimension. -/
def rankDim (A : Mat K) (rank : Int) : Nat := (effRank rank A.rows A.cols).toNat

/-- The sample matrix `Aᵗ·O` before it is orthonormalised. -/
def sampleY (gO : Nat → Nat → K) (A : Mat K) (rank : Int) : Mat K :=
  A.transpose.mul ⟨A.rows, rankDim A rank, gO⟩

/-- The matrix `Y` of `run`. -/
def basisY (sqrt : K → K) (gO : Nat → Nat → K) (A : Mat K) (rank : Int) : Mat K :=
  processGramSchmidt sqrt (sampleY gO A rank)

/-- The matrix `B = A·Y` of `RedSVD::run`. -/
def projB (sqrt : K → K) (gO : Nat → Nat → K) (A : Mat K) (rank : Int) : Mat K :=
  A.mul (basisY sqrt gO A rank)

/-- The sample matrix `B·P` before it is orthonormalised. -/
def sampleZ (sqrt : K → K) (gO gP : Nat → Nat → K) (A : Mat K) (rank : Int) : Mat K :=
  (projB sqrt gO A rank).mul ⟨(projB sqrt gO A rank).cols, rankDim A rank, gP⟩

/-- The matrix `Z` of `RedSVD::run`. -/
def basisZ (sqrt : K → K) (gO gP : Nat → Nat → K) (A : Mat K) (rank : Int) : Mat K :=
  processGramSchmidt sqrt (sampleZ sqrt gO gP A rank)

/-- The reduced matrix `C = Zᵗ·B` of `RedSVD::run`. -/
def reducedC (sqrt : K → K) (gO gP : Nat → Nat → K) (A : Mat K) (rank : Int) : Mat K :=
  (basisZ sqrt gO gP A rank).transpose.mul (projB sqrt gO A rank)

/-- The reduced matrix `B = Yᵗ·A·Y` of `RedSymEigen::run`. -/
def reducedB (sqrt : K → K) (gO : Nat → Nat → K) (A : Mat K) (rank : Int) : Mat K :=
  ((basisY sqrt gO A rank).transpose.mul A).mul (basisY sqrt gO A rank)

/-- Two matrices are equal: same shape and same coefficients inside it. -/
def MatEq (A B : Mat K) : Prop :=
  A.rows = B.rows ∧ A.cols = B.cols ∧
    ∀ i j, i < A.rows → j < A.cols → A.val i j = B.val i j

/-- The matrix `M` is the identity of size `n`. -/
def IsIdentity (M : Mat K) (n : Nat) : Prop :=
  M.rows = n ∧ M.cols = n ∧
    ∀ a b, a < n → b < n → M.val a b = if a = b then 1 else 0

/-- The coefficients of an `m × n` matrix as a matrix of the algebra library. -/
def toM (m n : Nat) (f : Nat → Nat → K) : Matrix (Fin m) (Fin n) K :=
  Matrix.of fun i j => f i.val j.val

/-- Product `U · diag(S) · Vᵗ` of three factors. -/
def reconstruct (U : Mat K) (S : Vec K) (V : Mat K) : Mat K :=
  (U.mul S.asDiagonal).mul V.transpose

end Algebra

/-! ## File readers (`redsvdFile.cpp`) -/

/-- Value of an `int` expression: the mathematical result reduced to 32-bit
two's complement. -/
def wrapInt32 (x : Int) : Int := (x + 2 ^ 31) % 2 ^ 32 - 2 ^ 31

/-- Type `fv_t`: a vector of `(int, float)` pairs. -/
abbrev fv_t (V : Type) := List (Int × V)

/-- Row-major `Eigen::SparseMatrix`: the shape (index type `int`) and, for each
started outer vector, the `(inner index, value)` pairs in insertion order. -/
structure SMatrix (V : Type) where
  rows : Int
  cols : Int
  vecs : List (List (Int × V))

/-- Method `resize(rows, cols)`: sets the shape and drops all stored entries. -/
def SMatrix.resize {V : Type} (_A : SMatrix V) (rows cols : Int) : SMatrix V := ⟨rows, cols, []⟩

/-- Method `startVec(i)`: opens the next outer vector. -/
def SMatrix.startVec {V : Type} (A : SMatrix V) : SMatrix V :=
  { A with vecs := A.vecs ++ [[]] }

/-- Appends an entry to the last list of a list of lists. -/
def appendLast {β : Type} : List (List β) → β → List (List β)
  | [], _ => []
  | [v], x => [v ++ [x]]
  | v :: w :: t, x => v :: appendLast (w :: t) x

/-- Statement `A.insertBack(i, inner) = value` for the outer vector `i` opened
last: appends the entry to that vector. -/
def SMatrix.insertBack {V : Type} (A : SMatrix V) (inner : Int) (value : V) : SMatrix V :=
  { A with vecs := appendLast A.vecs (inner, value) }

/-- Method `coeff(i, k)`: the value stored in outer vector `i` under inner index
`k`, and zero when there is none. -/
def SMatrix.coeff {V : Type} [Zero V] (A : SMatrix V) (i : Nat) (k : Int) : V :=
  match (A.vecs.getD i []).find? (fun p => decide (p.1 = k)) with
  | some p => p.2
  | none => 0

/-- First loop nest of `convertFV2Mat`, inner loop: `maxID = max(fv[j].first+1, maxID)`. -/
def maxIDRow {V : Type} (maxID : Int) (fv : fv_t V) : Int :=
  fv.foldl (fun m p => max (wrapInt32 (p.1 + 1)) m) maxID

/-- First loop nest of `convertFV2Mat`: the final value of `maxID`. -/
def maxIDAll {V : Type} (fvs : List (fv_t V)) : Int := fvs.foldl maxIDRow 0

/-- Second loop nest of `convertFV2Mat`, body of the outer loop. -/
def insertRow {V : Type} (A : SMatrix V) (fv : fv_t V) : SMatrix V :=
  fv.foldl (fun M p => M.insertBack p.1 p.2) A.startVec

/-- Function `convertFV2Mat(fvs, A)`: the matrix `A` after the call. The row
count `fvs.size()` is converted from `size_t` to `int`. The calls `reserve` (a
capacity hint computed from `nonZeroNum`) and `finalize` (which closes the last
outer vector) do not change the stored entries and are left out. -/
def convertFV2Mat {V : Type} (fvs : List (fv_t V)) (A : SMatrix V) : SMatrix V :=
  let maxID := maxIDAll fvs
  let A1 := A.resize (wrapInt32 fvs.length) maxID
  fvs.foldl insertRow A1

/-- Comparison used by `std::sort` on `pair<int, float>`: lexicographic order. -/
def pairLe (a b : Int × ℚ) : Prop := a.1 < b.1 ∨ (a.1 = b.1 ∧ a.2 ≤ b.2)

instance : DecidableRel pairLe := fun a b => by unfold pairLe; infer_instance

/-- Helper of `unique`: `a` is the last element kept so far. -/
def uniqueAux {β : Type} [DecidableEq β] (a : β) : List β → List β
  | [] => [a]
  | b :: t => if a = b then uniqueAux a t else a :: uniqueAux b t

/-- Idiom `v.erase(unique(v.begin(), v.end()), v.end())`: of every run of
consecutive equal elements only the first is kept. -/
def unique {β : Type} [DecidableEq β] : List β → List β
  | [] => []
  | a :: t => uniqueAux a t

/-- Function `readLine(line, lineN, fv)`: the vector `fv` after the call.
`line` is given as the sequence of `(id, val)` pairs that the extraction loop
`is >> id >> sep >> val` reads from it; float values are rationals. -/
def readLine (line : List (Int × ℚ)) (fv : fv_t ℚ) : fv_t ℚ :=
  unique ((fv ++ line).insertionSort pairLe)

/-- Method `resize(rows, cols)` of a dense matrix. Eigen leaves the coefficients
unchanged when the shape does not change; otherwise the storage is reallocated
(or reinterpreted) and `fresh` stands for what it then holds. -/
def Mat.resize {α : Type} (A : Mat α) (rows cols : Nat) (fresh : Nat → Nat → α) : Mat α :=
  if A.rows = rows ∧ A.cols = cols then A else ⟨rows, cols, fresh⟩

/-- Assignment `A(i, j) = v`. -/
def Mat.set {α : Type} (A : Mat α) (i j : Nat) (v : α) : Mat α :=
  ⟨A.rows, A.cols, fun a b => if a = i ∧ b = j then v else A.val a b⟩

/-- Warning line written to `cerr` by the dense `readMatrix`: the 1-based row
number, the number of entries of the row and the expected number. -/
structure Warning where
  row : Nat
  entries : Nat
  expected : Nat
  deriving DecidableEq

/-- Inner loop of the dense `readMatrix`: `A(i, j) = vs[i][j]` for `j < colNmin`. -/
def fillRow {α : Type} [Zero α] (A : Mat α) (i : Nat) (v : List α) (colNmin : Nat) : Mat α :=
  (List.range colNmin).foldl (fun M j => M.set i j (v.getD j 0)) A

/-- Body of the row loop of the dense `readMatrix`; the state is the matrix and
the warnings written so far. -/
def readRow {α : Type} [Zero α] (vs : List (List α)) (colN : Nat)
    (st : Mat α × List Warning) (i : Nat) : Mat α × List Warning :=
  let row := vs.getD i []
  let warned := if colN ≠ row.length then st.2 ++ [⟨i + 1, row.length, colN⟩] else st.2
  let colNmin := min colN row.length
  (fillRow st.1 i row colNmin, warned)

/-- Function `readMatrix(fn, A)` for a dense matrix, after the file has been
split into `vs`, one vector of parsed floats per line: the matrix `A` after the
call and the warnings written. -/
def readMatrix {α : Type} [Zero α] (vs : List (List α)) (A : Mat α)
    (fresh : Nat → Nat → α) : Mat α × List Warning :=
  let rowN := vs.length
  if rowN = 0 then (A, []) else
  let colN := (vs.getD 0 []).length
  let A1 := A.resize rowN colN fresh
  (List.range rowN).foldl (readRow vs colN) (A1, [])

/-! ## Concrete inputs used to exercise the theorems -/

/-- Coefficients of an identity matrix. -/
def idCoeff (K : Type) [Zero K] [One K] : Nat → Nat → K :=
  fun i j => if i = j then 1 else 0

/-- A 2×3 rational matrix. -/
def exMat23 : Mat ℚ := ⟨2, 3, fun i j => (i : ℚ) + (j : ℚ)⟩

/-- A matrix with no rows. -/
def exMat03 : Mat ℚ := ⟨0, 3, fun _ _ => 0⟩

/-- A solver stub whose coefficients are those of identity factors. -/
def exSVD (K : Type) [Zero K] [One K] : Mat K → SVDCoeffs K :=
  fun _ => ⟨idCoeff K, fun _ => 1, idCoeff K⟩

/-- An eigen-solver stub whose eigenvectors are those of an identity matrix. -/
def exEig (K : Type) [Zero K] [One K] : Mat K → EigCoeffs K :=
  fun _ => ⟨fun _ => 1, idCoeff K⟩

/-- A `RedSVD` object that holds 1×1 results. -/
def exState : RedSVD ℚ := ⟨⟨1, 1, fun _ _ => 7⟩, ⟨1, fun _ => 7⟩, ⟨1, 1, fun _ _ => 7⟩⟩

/-- The 2×2 real identity matrix. -/
def exId2 : Mat ℝ := ⟨2, 2, idCoeff ℝ⟩

/-- Parsed lines `1 2` and `3`: the second row is short. -/
def exShortRows : List (List ℚ) := [[1, 2], [3]]

/-- Parsed lines `1` and `2 3`: the second row is long. -/
def exLongRows : List (List ℚ) := [[1], [2, 3]]

/-- A 2×2 matrix that already holds the value 7 everywhere. -/
def exSevens : Mat ℚ := ⟨2, 2, fun _ _ => 7⟩

/-- Pairs read from the line `3:1 1:2 1:3 1:2`: index 1 is repeated, once with
the same value and once with another. -/
def exRepeatedLine : List (Int × ℚ) := [(3, 1), (1, 2), (1, 3), (1, 2)]

/-- A single feature vector whose only index is `INT_MAX`. -/
def exMaxIndex : List (fv_t ℚ) := [[(2147483647, 1)]]

/-- The feature vectors `[(0,1.0),(2,3.0)]` and `[(1,2.0)]`. -/
def exFvs : List (fv_t ℚ) := [[(0, 1), (2, 3)], [(1, 2)]]

/-- A default-constructed sparse matrix. -/
def exSparse : SMatrix ℚ := ⟨0, 0, []⟩

/-- A 1×2 real matrix: not square. -/
def exMat12 : Mat ℝ := ⟨1, 2, fun _ _ => 1⟩

/-! # Theorems -/

section PipelineLemmas

variable {K : Type} [Field K]

theorem effRank_eq_min (rank : Int) (rows cols : Nat) :
    effRank rank rows cols = min rank (min (rows : Int) (cols : Int)) := by
  unfold effRank
  simp only []
  split_ifs <;> omega

theorem effRank_nonneg {rank : Int} (h : 0 ≤ rank) (rows cols : Nat) :
    0 ≤ effRank rank rows cols := by
  rw [effRank_eq_min]; omega

theorem rankDim_cast (A : Mat K) {rank : Int} (h : 0 ≤ rank) :
    ((rankDim A rank : Nat) : Int) = min rank (min (A.rows : Int) (A.cols : Int)) := by
  unfold rankDim
  rw [Int.toNat_of_nonneg (effRank_nonneg h _ _), effRank_eq_min]

/-- On a matrix with positive dimensions and a non-negative rank, `RedSVD::run`
meets no failing precondition and stores the back-projected factors. -/
theorem redSVD_run_eq (sqrt : K → K) (svd : Mat K → SVDCoeffs K) (gO gP : Nat → Nat → K)
    (self : RedSVD K) (A : Mat K) (rank : Int)
    (hm : 0 < A.rows) (hn : 0 < A.cols) (hr : 0 ≤ rank) :
    RedSVD.run sqrt svd gO gP self A rank =
      some ⟨(basisZ sqrt gO gP A rank).mul (eigenSVD svd (reducedC sqrt gO gP A rank)).U,
            (eigenSVD svd (reducedC sqrt gO gP A rank)).S,
            (basisY sqrt gO A rank).mul (eigenSVD svd (reducedC sqrt gO gP A rank)).V⟩ := by
  have h0 : ¬ (A.cols = 0 ∨ A.rows = 0) := by omega
  have hneg : ¬ effRank rank A.rows A.cols < 0 := not_lt.mpr (effRank_nonneg hr _ _)
  unfold RedSVD.run
  rw [if_neg h0]
  simp [Mat.sized?, hneg, Mat.mul?, Mat.mul, Mat.transpose, sampleGaussianMat,
    processGramSchmidt, eigenSVD, basisZ, basisY, reducedC, projB, sampleZ, sampleY, rankDim]

/-- On a square matrix with positive dimensions and a non-negative rank,
`RedSymEigen::run` meets no failing precondition. -/
theorem redSymEigen_run_eq (sqrt : K → K) (eig : Mat K → EigCoeffs K) (gO : Nat → Nat → K)
    (self : RedSymEigen K) (A : Mat K) (rank : Int)
    (hm : 0 < A.rows) (hsq : A.rows = A.cols) (hr : 0 ≤ rank) :
    RedSymEigen.run sqrt eig gO self A rank =
      some ⟨(eigenSolver eig (reducedB sqrt gO A rank)).eigenvalues,
            (basisY sqrt gO A rank).mul (eigenSolver eig (reducedB sqrt gO A rank)).eigenvectors⟩ := by
  obtain ⟨m, n, f⟩ := A
  simp only at hm hsq
  subst hsq
  have h0 : ¬ (m = 0 ∨ m = 0) := by omega
  have hneg : ¬ effRank rank m m < 0 := not_lt.mpr (effRank_nonneg hr _ _)
  unfold RedSymEigen.run
  rw [if_neg h0]
  simp [Mat.sized?, hneg, Mat.mul?, Mat.mul, Mat.transpose, sampleGaussianMat,
    processGramSchmidt, eigenSolver, basisY, reducedB, sampleY, rankDim]

end PipelineLemmas

section GramSchmidt

variable {K : Type} [Field K]

theorem dotCols_comm (m : Nat) (f : Nat → Nat → K) (a b : Nat) :
    dotCols m f a b = dotCols m f b a := by
  unfold dotCols
  exact Finset.sum_congr rfl (fun _ _ => mul_comm _ _)

theorem dotCols_congr (m : Nat) (f g : Nat → Nat → K) (a b : Nat)
    (ha : ∀ i, g i a = f i a) (hb : ∀ i, g i b = f i b) :
    dotCols m g a b = dotCols m f a b := by
  unfold dotCols
  exact Finset.sum_congr rfl (fun i _ => by rw [ha, hb])

theorem projectOut_other (m : Nat) (f : Nat → Nat → K) (j k i c : Nat) (h : c ≠ j) :
    projectOut m f j k i c = f i c := by
  simp [projectOut, h]

theorem projectOut_self (m : Nat) (f : Nat → Nat → K) (j k i : Nat) :
    projectOut m f j k i j = f i j - dotCols m f j k * f i k := by
  simp [projectOut]

theorem dotCols_projectOut (m : Nat) (f : Nat → Nat → K) (j k l : Nat) (hl : l ≠ j) :
    dotCols m (projectOut m f j k) j l
      = dotCols m f j l - dotCols m f j k * dotCols m f k l := by
  unfold dotCols
  rw [Finset.mul_sum, ← Finset.sum_sub_distrib]
  refine Finset.sum_congr rfl (fun i _ => ?_)
  rw [projectOut_self, projectOut_other _ _ _ _ _ _ hl]
  simp only [dotCols]
  ring

/-- After `t` projections of a sweep the earlier columns are untouched and column
`j` is orthogonal to the first `t` of them. -/
theorem sweep_upto (m : Nat) (f : Nat → Nat → K) (j : Nat)
    (hf : ∀ a b, a < j → b < j → dotCols m f a b = if a = b then 1 else 0) :
    ∀ t, t ≤ j →
      (∀ i c, c ≠ j → (List.range t).foldl (fun g k => projectOut m g j k) f i c = f i c) ∧
      (∀ l, l < t → dotCols m ((List.range t).foldl (fun g k => projectOut m g j k) f) j l = 0) := by
  intro t
  induction t with
  | zero => intro _; exact ⟨fun _ _ _ => rfl, fun l hl => absurd hl (Nat.not_lt_zero l)⟩
  | succ t ih =>
    intro ht
    obtain ⟨h1, h2⟩ := ih (Nat.le_of_succ_le ht)
    rw [List.range_succ, List.foldl_append]
    simp only [List.foldl_cons, List.foldl_nil]
    refine ⟨fun i c hc => ?_, fun l hl => ?_⟩
    · rw [projectOut_other _ _ _ _ _ _ hc]; exact h1 i c hc
    · have htj : t < j := ht
      have hlj : l ≠ j := by omega
      have htne : t ≠ j := by omega
      rw [dotCols_projectOut _ _ _ _ _ hlj]
      have hdtl : dotCols m ((List.range t).foldl (fun g k => projectOut m g j k) f) t l
          = dotCols m f t l :=
        dotCols_congr _ _ _ _ _ (fun i => h1 i t htne) (fun i => h1 i l hlj)
      rw [hdtl, hf t l htj (by omega)]
      rcases Nat.lt_succ_iff_lt_or_eq.mp hl with hlt | rfl
      · have : t ≠ l := by omega
        rw [h2 l hlt, if_neg this]; ring
      · simp

theorem sweep_other (m : Nat) (f : Nat → Nat → K) (j : Nat)
    (hf : ∀ a b, a < j → b < j → dotCols m f a b = if a = b then 1 else 0)
    (i c : Nat) (hc : c ≠ j) : sweep m f j i c = f i c :=
  (sweep_upto m f j hf j (le_refl j)).1 i c hc

theorem sweep_orthogonal (m : Nat) (f : Nat → Nat → K) (j : Nat)
    (hf : ∀ a b, a < j → b < j → dotCols m f a b = if a = b then 1 else 0)
    (l : Nat) (hl : l < j) : dotCols m (sweep m f j) j l = 0 :=
  (sweep_upto m f j hf j (le_refl j)).2 l hl

theorem residual_other (m : Nat) (f : Nat → Nat → K) (j : Nat)
    (hf : ∀ a b, a < j → b < j → dotCols m f a b = if a = b then 1 else 0)
    (i c : Nat) (hc : c ≠ j) : residual m f j i c = f i c := by
  have h1 : ∀ a b, a < j → b < j →
      dotCols m (sweep m f j) a b = if a = b then 1 else 0 := by
    intro a b ha hb
    rw [dotCols_congr m f (sweep m f j) a b
      (fun i => sweep_other m f j hf i a (by omega))
      (fun i => sweep_other m f j hf i b (by omega))]
    exact hf a b ha hb
  unfold residual
  rw [sweep_other m _ j h1 i c hc, sweep_other m f j hf i c hc]

theorem residual_orthogonal (m : Nat) (f : Nat → Nat → K) (j : Nat)
    (hf : ∀ a b, a < j → b < j → dotCols m f a b = if a = b then 1 else 0)
    (l : Nat) (hl : l < j) : dotCols m (residual m f j) j l = 0 := by
  have h1 : ∀ a b, a < j → b < j →
      dotCols m (sweep m f j) a b = if a = b then 1 else 0 := by
    intro a b ha hb
    rw [dotCols_congr m f (sweep m f j) a b
      (fun i => sweep_other m f j hf i a (by omega))
      (fun i => sweep_other m f j hf i b (by omega))]
    exact hf a b ha hb
  exact sweep_orthogonal m _ j h1 l hl

theorem normalizeCol_other (sqrt : K → K) (m : Nat) (f : Nat → Nat → K) (j i c : Nat)
    (h : c ≠ j) : normalizeCol sqrt m f j i c = f i c := by
  simp [normalizeCol, h]

theorem normalizeCol_self (sqrt : K → K) (m : Nat) (f : Nat → Nat → K) (j i : Nat) :
    normalizeCol sqrt m f j i j = f i j / sqrt (dotCols m f j j) := by
  simp [normalizeCol]

theorem dotCols_normalizeCol_left (sqrt : K → K) (m : Nat) (f : Nat → Nat → K) (j l : Nat)
    (hl : l ≠ j) :
    dotCols m (normalizeCol sqrt m f j) j l = dotCols m f j l / sqrt (dotCols m f j j) := by
  simp only [dotCols]
  rw [Finset.sum_div]
  refine Finset.sum_congr rfl (fun i _ => ?_)
  rw [normalizeCol_self, normalizeCol_other _ _ _ _ _ _ hl]
  simp only [dotCols]
  ring

theorem dotCols_normalizeCol_self (sqrt : K → K) (m : Nat) (f : Nat → Nat → K) (j : Nat) :
    dotCols m (normalizeCol sqrt m f j) j j
      = dotCols m f j j / (sqrt (dotCols m f j j) * sqrt (dotCols m f j j)) := by
  simp only [dotCols]
  rw [Finset.sum_div]
  refine Finset.sum_congr rfl (fun i _ => ?_)
  rw [normalizeCol_self]
  simp only [dotCols]
  ring

theorem gsLoop_succ (sqrt : K → K) (m : Nat) (f : Nat → Nat → K) (t : Nat) :
    gsLoop sqrt m f (t + 1) = gsColumn sqrt m (gsLoop sqrt m f t) t := by
  unfold gsLoop
  rw [List.range_succ, List.foldl_append]
  rfl

end GramSchmidt

section GramSchmidtReal

theorem dotCols_self_pos (m : Nat) (g : Nat → Nat → ℝ) (j : Nat)
    (h : ∃ i, i < m ∧ g i j ≠ 0) : 0 < dotCols m g j j := by
  obtain ⟨i, hi, hne⟩ := h
  unfold dotCols
  exact Finset.sum_pos' (fun x _ => mul_self_nonneg (g x j))
    ⟨i, Finset.mem_range.mpr hi, mul_self_pos.mpr hne⟩

/-- Orthonormality of the columns already processed by the column loop. -/
theorem gsLoop_orthonormal (m : Nat) (f : Nat → Nat → ℝ) (c : Nat)
    (hres : ∀ j, j < c → ∃ i, i < m ∧ residual m (gsLoop Real.sqrt m f j) j i j ≠ 0) :
    ∀ t, t ≤ c → ∀ a b, a < t → b < t →
      dotCols m (gsLoop Real.sqrt m f t) a b = if a = b then 1 else 0 := by
  intro t
  induction t with
  | zero => intro _ a b ha; exact absurd ha (Nat.not_lt_zero a)
  | succ t ih =>
    intro ht
    have hg := ih (Nat.le_of_succ_le ht)
    have hpos := dotCols_self_pos m _ t (hres t ht)
    have hsq : Real.sqrt (dotCols m (residual m (gsLoop Real.sqrt m f t) t) t t)
        * Real.sqrt (dotCols m (residual m (gsLoop Real.sqrt m f t) t) t t)
        = dotCols m (residual m (gsLoop Real.sqrt m f t) t) t t :=
      Real.mul_self_sqrt (le_of_lt hpos)
    have hlow : ∀ a b, a < t → b < t →
        dotCols m (gsLoop Real.sqrt m f (t + 1)) a b = if a = b then 1 else 0 := by
      intro a b ha hb
      rw [gsLoop_succ, ← hg a b ha hb]
      unfold gsColumn
      refine dotCols_congr _ _ _ _ _ (fun i => ?_) (fun i => ?_)
      · rw [normalizeCol_other _ _ _ _ _ _ (by omega), residual_other _ _ _ hg _ _ (by omega)]
      · rw [normalizeCol_other _ _ _ _ _ _ (by omega), residual_other _ _ _ hg _ _ (by omega)]
    have hmix : ∀ b, b < t → dotCols m (gsLoop Real.sqrt m f (t + 1)) t b = 0 := by
      intro b hb
      rw [gsLoop_succ]
      unfold gsColumn
      rw [dotCols_normalizeCol_left _ _ _ _ _ (by omega), residual_orthogonal _ _ _ hg _ hb]
      simp
    have hself : dotCols m (gsLoop Real.sqrt m f (t + 1)) t t = 1 := by
      rw [gsLoop_succ]
      unfold gsColumn
      rw [dotCols_normalizeCol_self, hsq]
      exact div_self (ne_of_gt hpos)
    intro a b ha hb
    rcases Nat.lt_succ_iff_lt_or_eq.mp ha with ha | rfl
    · rcases Nat.lt_succ_iff_lt_or_eq.mp hb with hb | rfl
      · exact hlow a b ha hb
      · rw [dotCols_comm, hmix a ha, if_neg (by omega)]
    · rcases Nat.lt_succ_iff_lt_or_eq.mp hb with hb | rfl
      · rw [hmix b hb, if_neg (by omega)]
      · rw [hself, if_pos rfl]

/-- With no zero residual, `processGramSchmidt` returns orthonormal columns. -/
theorem processGramSchmidt_orthonormal (M : Mat ℝ) (h : NoZeroResidual Real.sqrt M)
    (a b : Nat) (ha : a < M.cols) (hb : b < M.cols) :
    dotCols M.rows (processGramSchmidt Real.sqrt M).val a b = if a = b then 1 else 0 :=
  gsLoop_orthonormal M.rows M.val M.cols h M.cols (le_refl _) a b ha hb

end GramSchmidtReal

section Span

variable {K : Type} [Field K]

/-- Every column of `g` below `c` is a combination of the columns of `f` below `c`. -/
theorem span_refl (c : Nat) (f : Nat → Nat → K) :
    ∃ R : Nat → Nat → K, ∀ i j, j < c → f i j = ∑ k in Finset.range c, f i k * R k j := by
  refine ⟨fun k j => if k = j then 1 else 0, fun i j hj => ?_⟩
  simp [Finset.sum_ite_eq, hj]

theorem span_projectOut (m c : Nat) (f g : Nat → Nat → K) (j k : Nat) (hj : j < c) (hk : k < c)
    (h : ∃ R : Nat → Nat → K, ∀ i b, b < c → g i b = ∑ x in Finset.range c, f i x * R x b) :
    ∃ R : Nat → Nat → K, ∀ i b, b < c →
      projectOut m g j k i b = ∑ x in Finset.range c, f i x * R x b := by
  obtain ⟨R, hR⟩ := h
  refine ⟨fun x b => if b = j then R x j - dotCols m g j k * R x k else R x b, fun i b hb => ?_⟩
  by_cases hbj : b = j
  · subst hbj
    rw [projectOut_self, hR i b hb, hR i k hk]
    simp only [if_true]
    rw [Finset.mul_sum, ← Finset.sum_sub_distrib]
    exact Finset.sum_congr rfl (fun x _ => by ring)
  · rw [projectOut_other _ _ _ _ _ _ hbj, hR i b hb]
    simp only [if_neg hbj]

theorem span_normalizeCol (sqrt : K → K) (m c : Nat) (f g : Nat → Nat → K) (j : Nat) (hj : j < c)
    (h : ∃ R : Nat → Nat → K, ∀ i b, b < c → g i b = ∑ x in Finset.range c, f i x * R x b) :
    ∃ R : Nat → Nat → K, ∀ i b, b < c →
      normalizeCol sqrt m g j i b = ∑ x in Finset.range c, f i x * R x b := by
  obtain ⟨R, hR⟩ := h
  refine ⟨fun x b => if b = j then R x j / sqrt (dotCols m g j j) else R x b, fun i b hb => ?_⟩
  by_cases hbj : b = j
  · subst hbj
    rw [normalizeCol_self, hR i b hb]
    simp only [if_true]
    rw [Finset.sum_div]
    exact Finset.sum_congr rfl (fun x _ => by ring)
  · rw [normalizeCol_other _ _ _ _ _ _ hbj, hR i b hb]
    simp only [if_neg hbj]

theorem span_sweep (m c : Nat) (f g : Nat → Nat → K) (j : Nat) (hj : j < c)
    (h : ∃ R : Nat → Nat → K, ∀ i b, b < c → g i b = ∑ x in Finset.range c, f i x * R x b) :
    ∃ R : Nat → Nat → K, ∀ i b, b < c →
      sweep m g j i b = ∑ x in Finset.range c, f i x * R x b := by
  have key : ∀ t, t ≤ j → ∃ R : Nat → Nat → K, ∀ i b, b < c →
      (List.range t).foldl (fun g k => projectOut m g j k) g i b
        = ∑ x in Finset.range c, f i x * R x b := by
    intro t
    induction t with
    | zero => intro _; exact h
    | succ t ih =>
      intro ht
      rw [List.range_succ, List.foldl_append]
      exact span_projectOut m c f _ j t hj (by omega) (ih (Nat.le_of_succ_le ht))
  exact key j (le_refl j)

theorem span_gsLoop (sqrt : K → K) (m c : Nat) (f : Nat → Nat → K) :
    ∀ t, t ≤ c → ∃ R : Nat → Nat → K, ∀ i b, b < c →
      gsLoop sqrt m f t i b = ∑ x in Finset.range c, f i x * R x b := by
  intro t
  induction t with
  | zero => intro _; exact span_refl c f
  | succ t ih =>
    intro ht
    rw [gsLoop_succ]
    unfold gsColumn residual
    exact span_normalizeCol sqrt m c f _ t ht
      (span_sweep m c f _ t ht (span_sweep m c f _ t ht (ih (Nat.le_of_succ_le ht))))

/-- The columns returned by `processGramSchmidt` are combinations of the columns
it was given. -/
theorem processGramSchmidt_span (sqrt : K → K) (M : Mat K) :
    ∃ R : Nat → Nat → K, ∀ i b, b < M.cols →
      (processGramSchmidt sqrt M).val i b = ∑ x in Finset.range M.cols, M.val i x * R x b :=
  span_gsLoop sqrt M.rows M.cols M.val M.cols (le_refl _)

end Span

section Bridge

variable {K : Type} [Field K]

open Matrix

theorem toM_mulVal (m k n : Nat) (f g : Nat → Nat → K) :
    toM m n (mulVal k f g) = toM m k f * toM k n g := by
  ext i j
  simp only [toM, mulVal, Matrix.of_apply, Matrix.mul_apply]
  rw [Fin.sum_univ_eq_sum_range (fun x => f i.val x * g x j.val) k]

theorem toM_transpose (m n : Nat) (f : Nat → Nat → K) :
    toM n m (fun i j => f j i) = (toM m n f)ᵀ := by
  ext i j
  simp [toM]

theorem toM_ext_iff (m n : Nat) (f g : Nat → Nat → K) :
    toM m n f = toM m n g ↔ ∀ i j, i < m → j < n → f i j = g i j := by
  constructor
  · intro h i j hi hj
    have := congrFun (congrFun h ⟨i, hi⟩) ⟨j, hj⟩
    simpa [toM] using this
  · intro h
    ext i j
    simp only [toM, Matrix.of_apply]
    exact h i.val j.val i.isLt j.isLt

theorem toM_gram (m c : Nat) (g : Nat → Nat → K)
    (h : ∀ a b, a < c → b < c → dotCols m g a b = if a = b then 1 else 0) :
    (toM m c g)ᵀ * toM m c g = 1 := by
  ext a b
  simp only [toM, Matrix.mul_apply, Matrix.transpose_apply, Matrix.of_apply, Matrix.one_apply]
  rw [Fin.sum_univ_eq_sum_range (fun x => g x a.val * g x b.val) m]
  have := h a.val b.val a.isLt b.isLt
  simp only [dotCols] at this
  rw [this]
  simp [Fin.ext_iff]

theorem gram_of_toM (m c : Nat) (g : Nat → Nat → K) (h : (toM m c g)ᵀ * toM m c g = 1)
    (a b : Nat) (ha : a < c) (hb : b < c) : dotCols m g a b = if a = b then 1 else 0 := by
  have := congrFun (congrFun h ⟨a, ha⟩) ⟨b, hb⟩
  simp only [toM, Matrix.mul_apply, Matrix.transpose_apply, Matrix.of_apply,
    Matrix.one_apply] at this
  rw [Fin.sum_univ_eq_sum_range (fun x => g x a * g x b) m] at this
  simp only [dotCols]
  rw [this]
  simp [Fin.ext_iff]

theorem toM_span (m c : Nat) (f g R : Nat → Nat → K)
    (h : ∀ i b, b < c → g i b = ∑ x in Finset.range c, f i x * R x b) :
    toM m c g = toM m c f * toM c c R := by
  rw [← toM_mulVal]
  exact (toM_ext_iff m c _ _).mpr (fun i j _ hj => h i j hj)

end Bridge

section Reconstruction

open Matrix


theorem reconstruct_left {K : Type} [Field K] {m n : Nat}
    (A : Matrix (Fin m) (Fin n) K) (Z : Matrix (Fin m) (Fin n) K) (W : Matrix (Fin n) (Fin n) K)
    (hZ : Zᵀ * Z = 1) (hZs : Z = A * W) : Z * (Zᵀ * A) = A := by
  have h1 : (Wᵀ * Aᵀ * A) * W = 1 := by
    rw [← hZ, hZs, Matrix.transpose_mul]; simp only [Matrix.mul_assoc]
  have h2 : W * (Wᵀ * Aᵀ * A) = 1 := Matrix.mul_eq_one_comm.mp h1
  calc Z * (Zᵀ * A) = A * (W * (Wᵀ * Aᵀ * A)) := by
        rw [hZs, Matrix.transpose_mul]; simp only [Matrix.mul_assoc]
    _ = A := by rw [h2, Matrix.mul_one]

theorem reconstruct_right {K : Type} [Field K] {m n : Nat}
    (A : Matrix (Fin m) (Fin n) K) (Y : Matrix (Fin n) (Fin m) K) (W : Matrix (Fin m) (Fin m) K)
    (hY : Yᵀ * Y = 1) (hYs : Y = Aᵀ * W) : A * Y * Yᵀ = A := by
  have h1 : Wᵀ * (A * Aᵀ * W) = 1 := by
    rw [← hY, hYs, Matrix.transpose_mul, Matrix.transpose_transpose]; simp only [Matrix.mul_assoc]
  have h2 : (A * Aᵀ * W) * Wᵀ = 1 := Matrix.mul_eq_one_comm.mp h1
  calc A * Y * Yᵀ = ((A * Aᵀ * W) * Wᵀ) * A := by
        rw [hYs, Matrix.transpose_mul, Matrix.transpose_transpose]; simp only [Matrix.mul_assoc]
    _ = A := by rw [h2, Matrix.one_mul]

theorem reconstruct_core {K : Type} [Field K] {m n r : Nat} (hr : r = n ∨ r = m)
    (A : Matrix (Fin m) (Fin n) K) (Y : Matrix (Fin n) (Fin r) K) (Z : Matrix (Fin m) (Fin r) K)
    (W₁ : Matrix (Fin m) (Fin r) K) (W₂ : Matrix (Fin r) (Fin r) K)
    (hY : Yᵀ * Y = 1) (hZ : Zᵀ * Z = 1) (hYs : Y = Aᵀ * W₁) (hZs : Z = A * Y * W₂) :
    Z * (Zᵀ * (A * Y)) * Yᵀ = A := by
  rcases hr with h | h
  · subst h
    have hYY : Y * Yᵀ = 1 := Matrix.mul_eq_one_comm.mp hY
    have hZA : Z * (Zᵀ * A) = A :=
      reconstruct_left A Z (Y * W₂) hZ (by rw [hZs, Matrix.mul_assoc])
    calc Z * (Zᵀ * (A * Y)) * Yᵀ = Z * (Zᵀ * A) * (Y * Yᵀ) := by simp only [Matrix.mul_assoc]
      _ = A := by rw [hYY, hZA, Matrix.mul_one]
  · subst h
    have hZZ : Z * Zᵀ = 1 := Matrix.mul_eq_one_comm.mp hZ
    have hAY : A * Y * Yᵀ = A := reconstruct_right A Y W₁ hY hYs
    calc Z * (Zᵀ * (A * Y)) * Yᵀ = (Z * Zᵀ) * (A * Y * Yᵀ) := by simp only [Matrix.mul_assoc]
      _ = A := by rw [hZZ, hAY, Matrix.one_mul]

theorem gram_mul {K : Type} [Field K] {m r : Nat} (Z : Matrix (Fin m) (Fin r) K)
    (U : Matrix (Fin r) (Fin r) K) (hZ : Zᵀ * Z = 1) (hU : Uᵀ * U = 1) :
    (Z * U)ᵀ * (Z * U) = 1 := by
  calc (Z * U)ᵀ * (Z * U) = Uᵀ * ((Zᵀ * Z) * U) := by
        rw [Matrix.transpose_mul]; simp only [Matrix.mul_assoc]
    _ = 1 := by rw [hZ, Matrix.one_mul, hU]

end Reconstruction

section Orthonormality

open Matrix

theorem isIdentity_mul {K : Type} [Field K] (Z U : Mat K) (r : Nat)
    (hZc : Z.cols = r) (hUr : U.rows = r) (hUc : U.cols = r)
    (hZ : IsIdentity (Z.transpose.mul Z) r) (hU : IsIdentity (U.transpose.mul U) r) :
    IsIdentity ((Z.mul U).transpose.mul (Z.mul U)) r := by
  obtain ⟨zm, zc, zv⟩ := Z
  obtain ⟨ur, uc, uv⟩ := U
  simp only at hZc hUr hUc
  subst hZc hUr hUc
  refine ⟨rfl, rfl, fun a b ha hb => ?_⟩
  show dotCols zm (mulVal uc zv uv) a b = _
  apply gram_of_toM zm uc _ _ a b ha hb
  rw [toM_mulVal]
  exact gram_mul _ _ (toM_gram _ _ _ (fun a b ha hb => hZ.2.2 a b ha hb))
    (toM_gram _ _ _ (fun a b ha hb => hU.2.2 a b ha hb))

theorem processGramSchmidt_isIdentity (M : Mat ℝ) (h : NoZeroResidual Real.sqrt M) :
    IsIdentity ((processGramSchmidt Real.sqrt M).transpose.mul (processGramSchmidt Real.sqrt M))
      M.cols :=
  ⟨rfl, rfl, fun a b ha hb => processGramSchmidt_orthonormal M h a b ha hb⟩

end Orthonormality

section ExampleFacts

theorem exId2_sampleY_residual :
    NoZeroResidual Real.sqrt (sampleY (idCoeff ℝ) exId2 2) := by
  intro j hj
  have hj' : j < 2 := hj
  interval_cases j
  · refine ⟨0, by decide, ?_⟩
    simp [gsResidual, residual, sweep, gsLoop, sampleY, exId2, idCoeff, Mat.mul, Mat.transpose,
      mulVal, Finset.sum_range_succ, rankDim, effRank]
  · refine ⟨1, by decide, ?_⟩
    simp [gsResidual, residual, sweep, gsLoop, gsColumn, normalizeCol, projectOut, dotCols,
      sampleY, exId2, idCoeff, Mat.mul, Mat.transpose,
      mulVal, Finset.sum_range_succ, rankDim, effRank, List.range_succ]

theorem exId2_sampleZ_residual :
    NoZeroResidual Real.sqrt (sampleZ Real.sqrt (idCoeff ℝ) (idCoeff ℝ) exId2 2) := by
  intro j hj
  have hj' : j < 2 := hj
  interval_cases j
  · refine ⟨0, by decide, ?_⟩
    simp [gsResidual, residual, sweep, gsLoop, gsColumn, normalizeCol, projectOut, dotCols,
      sampleZ, projB, basisY, processGramSchmidt,
      sampleY, exId2, idCoeff, Mat.mul, Mat.transpose,
      mulVal, Finset.sum_range_succ, rankDim, effRank, List.range_succ]
  · refine ⟨1, by decide, ?_⟩
    simp [gsResidual, residual, sweep, gsLoop, gsColumn, normalizeCol, projectOut, dotCols,
      sampleZ, projB, basisY, processGramSchmidt,
      sampleY, exId2, idCoeff, Mat.mul, Mat.transpose,
      mulVal, Finset.sum_range_succ, rankDim, effRank, List.range_succ]

theorem exId2_factorisation :
    MatEq (reconstruct
      (eigenSVD (exSVD ℝ) (reducedC Real.sqrt (idCoeff ℝ) (idCoeff ℝ) exId2 2)).U
      (eigenSVD (exSVD ℝ) (reducedC Real.sqrt (idCoeff ℝ) (idCoeff ℝ) exId2 2)).S
      (eigenSVD (exSVD ℝ) (reducedC Real.sqrt (idCoeff ℝ) (idCoeff ℝ) exId2 2)).V)
      (reducedC Real.sqrt (idCoeff ℝ) (idCoeff ℝ) exId2 2) := by
  refine ⟨rfl, rfl, fun i j hi hj => ?_⟩
  have hi' : i < 2 := hi
  have hj' : j < 2 := hj
  interval_cases i <;> interval_cases j <;>
    simp [reconstruct, eigenSVD, exSVD, Vec.asDiagonal, reducedC, basisZ,
      gsResidual, residual, sweep, gsLoop, gsColumn, normalizeCol, projectOut, dotCols,
      sampleZ, projB, basisY, processGramSchmidt,
      sampleY, exId2, idCoeff, Mat.mul, Mat.transpose,
      mulVal, Finset.sum_range_succ, rankDim, effRank, List.range_succ]

theorem idCoeff_isIdentity (rows : Nat) :
    IsIdentity ((⟨rows, rows, idCoeff ℝ⟩ : Mat ℝ).transpose.mul ⟨rows, rows, idCoeff ℝ⟩) rows := by
  refine ⟨rfl, rfl, fun a b ha hb => ?_⟩
  show (∑ x in Finset.range rows, idCoeff ℝ x a * idCoeff ℝ x b) = _
  simp only [idCoeff, ite_mul, one_mul, zero_mul]
  rw [Finset.sum_ite_eq' (Finset.range rows) a, if_pos (Finset.mem_range.mpr ha)]

end ExampleFacts

section DenseReader

variable {α : Type} [Zero α]

theorem resize_rows (A : Mat α) (r c : Nat) (fresh : Nat → Nat → α) :
    (A.resize r c fresh).rows = r := by
  unfold Mat.resize
  split_ifs with h
  · exact h.1
  · rfl

theorem resize_cols (A : Mat α) (r c : Nat) (fresh : Nat → Nat → α) :
    (A.resize r c fresh).cols = c := by
  unfold Mat.resize
  split_ifs with h
  · exact h.2
  · rfl

theorem fillRow_spec (A : Mat α) (i : Nat) (v : List α) (k : Nat) :
    (fillRow A i v k).rows = A.rows ∧ (fillRow A i v k).cols = A.cols ∧
    ∀ a b, (fillRow A i v k).val a b = if a = i ∧ b < k then v.getD b 0 else A.val a b := by
  induction k with
  | zero => simp [fillRow]
  | succ k ih =>
    obtain ⟨h1, h2, h3⟩ := ih
    unfold fillRow at h1 h2 h3 ⊢
    rw [List.range_succ, List.foldl_append]
    simp only [List.foldl_cons, List.foldl_nil]
    refine ⟨h1, h2, fun a b => ?_⟩
    show (if a = i ∧ b = k then v.getD k 0 else _) = _
    rw [h3]
    by_cases ha : a = i
    · by_cases hb : b = k
      · simp [ha, hb]
      · have : b < k + 1 ↔ b < k := by omega
        simp [ha, hb, this]
    · simp [ha]

theorem readRows_spec (vs : List (List α)) (colN : Nat) (A1 : Mat α) (t : Nat) :
    ((List.range t).foldl (readRow vs colN) (A1, [])).1.rows = A1.rows ∧
    ((List.range t).foldl (readRow vs colN) (A1, [])).1.cols = A1.cols ∧
    (∀ a b, ((List.range t).foldl (readRow vs colN) (A1, [])).1.val a b =
      if a < t ∧ b < min colN (vs.getD a []).length then (vs.getD a []).getD b 0
      else A1.val a b) ∧
    (∀ w, w ∈ ((List.range t).foldl (readRow vs colN) (A1, [])).2 ↔
      ∃ i, i < t ∧ colN ≠ (vs.getD i []).length ∧ w = ⟨i + 1, (vs.getD i []).length, colN⟩) := by
  induction t with
  | zero => simp
  | succ t ih =>
    obtain ⟨h1, h2, h3, h4⟩ := ih
    rw [List.range_succ, List.foldl_append]
    simp only [List.foldl_cons, List.foldl_nil]
    obtain ⟨f1, f2, f3⟩ := fillRow_spec ((List.range t).foldl (readRow vs colN) (A1, [])).1 t
      (vs.getD t []) (min colN (vs.getD t []).length)
    refine ⟨?_, ?_, ?_, ?_⟩
    · show (fillRow _ _ _ _).rows = _
      rw [f1, h1]
    · show (fillRow _ _ _ _).cols = _
      rw [f2, h2]
    · intro a b
      show (fillRow _ _ _ _).val a b = _
      rw [f3, h3]
      by_cases ha : a = t
      · subst ha
        by_cases hb : b < min colN (vs.getD a []).length
        · simp [hb]
        · simp [hb]
      · have : a < t + 1 ↔ a < t := by omega
        simp [ha, this]
    · intro w
      show w ∈ (if colN ≠ (vs.getD t []).length then _ ++ [_] else _) ↔ _
      by_cases hc : colN ≠ (vs.getD t []).length
      · rw [if_pos hc, List.mem_append, h4]
        constructor
        · rintro (⟨i, hi, hne, rfl⟩ | hw)
          · exact ⟨i, by omega, hne, rfl⟩
          · exact ⟨t, by omega, hc, by simpa using hw⟩
        · rintro ⟨i, hi, hne, rfl⟩
          rcases Nat.lt_succ_iff_lt_or_eq.mp hi with hlt | rfl
          · exact Or.inl ⟨i, hlt, hne, rfl⟩
          · exact Or.inr (by simp)
      · rw [if_neg hc, h4]
        constructor
        · rintro ⟨i, hi, hne, rfl⟩
          exact ⟨i, by omega, hne, rfl⟩
        · rintro ⟨i, hi, hne, rfl⟩
          rcases Nat.lt_succ_iff_lt_or_eq.mp hi with hlt | rfl
          · exact ⟨i, hlt, hne, rfl⟩
          · exact absurd hne hc

end DenseReader

theorem wrapInt32_eq (x : Int) (h0 : -2 ^ 31 ≤ x) (h1 : x < 2 ^ 31) : wrapInt32 x = x := by
  unfold wrapInt32
  omega

section SparseBuilder

variable {V : Type}

theorem maxIDRow_spec (fv : fv_t V) (hidx : ∀ p ∈ fv, 0 ≤ p.1 ∧ p.1 + 1 < 2 ^ 31) :
    ∀ m0 : Int, m0 ≤ maxIDRow m0 fv ∧ (∀ p ∈ fv, p.1 + 1 ≤ maxIDRow m0 fv) ∧
      (maxIDRow m0 fv = m0 ∨ ∃ p ∈ fv, maxIDRow m0 fv = p.1 + 1) := by
  induction fv with
  | nil => intro m0; simp [maxIDRow]
  | cons q t ih =>
    intro m0
    have hq := hidx q (List.mem_cons_self q t)
    have hw : wrapInt32 (q.1 + 1) = q.1 + 1 := wrapInt32_eq _ (by omega) hq.2
    obtain ⟨h1, h2, h3⟩ := ih (fun p hp => hidx p (List.mem_cons_of_mem q hp))
      (max (wrapInt32 (q.1 + 1)) m0)
    have hstep : maxIDRow m0 (q :: t) = maxIDRow (max (wrapInt32 (q.1 + 1)) m0) t := rfl
    rw [hstep]
    rw [hw] at h1 h2 h3 ⊢
    refine ⟨le_trans (le_max_right _ _) h1, ?_, ?_⟩
    · intro p hp
      rcases List.mem_cons.mp hp with rfl | hp
      · exact le_trans (le_max_left _ _) h1
      · exact h2 p hp
    · rcases h3 with h3 | ⟨p, hp, h3⟩
      · rcases max_choice (q.1 + 1) m0 with hm | hm
        · exact Or.inr ⟨q, List.mem_cons_self q t, by rw [h3, hm]⟩
        · exact Or.inl (by rw [h3, hm])
      · exact Or.inr ⟨p, List.mem_cons_of_mem q hp, h3⟩

theorem maxIDFold_spec (fvs : List (fv_t V))
    (hidx : ∀ fv ∈ fvs, ∀ p ∈ fv, 0 ≤ p.1 ∧ p.1 + 1 < 2 ^ 31) :
    ∀ m0 : Int, m0 ≤ fvs.foldl maxIDRow m0 ∧
      (∀ fv ∈ fvs, ∀ p ∈ fv, p.1 + 1 ≤ fvs.foldl maxIDRow m0) ∧
      (fvs.foldl maxIDRow m0 = m0 ∨ ∃ fv ∈ fvs, ∃ p ∈ fv, fvs.foldl maxIDRow m0 = p.1 + 1) := by
  induction fvs with
  | nil => intro m0; simp
  | cons fv t ih =>
    intro m0
    obtain ⟨a1, a2, a3⟩ := maxIDRow_spec fv (hidx fv (List.mem_cons_self fv t)) m0
    obtain ⟨h1, h2, h3⟩ := ih (fun f hf => hidx f (List.mem_cons_of_mem fv hf)) (maxIDRow m0 fv)
    rw [List.foldl_cons]
    refine ⟨le_trans a1 h1, ?_, ?_⟩
    · intro f hf p hp
      rcases List.mem_cons.mp hf with rfl | hf
      · exact le_trans (a2 p hp) h1
      · exact h2 f hf p hp
    · rcases h3 with h3 | ⟨f, hf, p, hp, h3⟩
      · rcases a3 with a3 | ⟨p, hp, a3⟩
        · exact Or.inl (by rw [h3, a3])
        · exact Or.inr ⟨fv, List.mem_cons_self fv t, p, hp, by rw [h3, a3]⟩
      · exact Or.inr ⟨f, List.mem_cons_of_mem fv hf, p, hp, h3⟩

theorem appendLast_snoc {β : Type} (pre : List (List β)) (q : List β) (x : β) :
    appendLast (pre ++ [q]) x = pre ++ [q ++ [x]] := by
  induction pre with
  | nil => rfl
  | cons a t ih =>
    cases t with
    | nil => rfl
    | cons b u =>
      show a :: appendLast ((b :: u) ++ [q]) x = _
      rw [ih]; rfl

theorem insertBack_fold (fv : fv_t V) :
    ∀ (M : SMatrix V) (pre : List (List (Int × V))) (q : List (Int × V)),
      M.vecs = pre ++ [q] →
      (fv.foldl (fun M p => M.insertBack p.1 p.2) M).vecs = pre ++ [q ++ fv] ∧
      (fv.foldl (fun M p => M.insertBack p.1 p.2) M).rows = M.rows ∧
      (fv.foldl (fun M p => M.insertBack p.1 p.2) M).cols = M.cols := by
  induction fv with
  | nil => intro M pre q h; simp [h]
  | cons p t ih =>
    intro M pre q h
    rw [List.foldl_cons]
    have hv : (M.insertBack p.1 p.2).vecs = pre ++ [q ++ [p]] := by
      show appendLast M.vecs (p.1, p.2) = _
      rw [h, appendLast_snoc]
    obtain ⟨h1, h2, h3⟩ := ih (M.insertBack p.1 p.2) pre (q ++ [p]) hv
    refine ⟨by rw [h1]; simp, h2, h3⟩

theorem insertRow_spec (A : SMatrix V) (fv : fv_t V) :
    (insertRow A fv).vecs = A.vecs ++ [fv] ∧ (insertRow A fv).rows = A.rows ∧
      (insertRow A fv).cols = A.cols := by
  obtain ⟨h1, h2, h3⟩ := insertBack_fold fv A.startVec A.vecs [] rfl
  exact ⟨by unfold insertRow; rw [h1]; simp, h2, h3⟩

theorem insertRows_spec (fvs : List (fv_t V)) :
    ∀ A : SMatrix V, (fvs.foldl insertRow A).vecs = A.vecs ++ fvs ∧
      (fvs.foldl insertRow A).rows = A.rows ∧ (fvs.foldl insertRow A).cols = A.cols := by
  induction fvs with
  | nil => intro A; simp
  | cons fv t ih =>
    intro A
    obtain ⟨h1, h2, h3⟩ := insertRow_spec A fv
    obtain ⟨i1, i2, i3⟩ := ih (insertRow A fv)
    rw [List.foldl_cons]
    exact ⟨by rw [i1, h1]; simp, by rw [i2, h2], by rw [i3, h3]⟩

theorem find_of_sorted (l : fv_t V) (hs : l.Pairwise (fun a b => a.1 < b.1)) (k : Int) (v : V)
    (h : (k, v) ∈ l) : l.find? (fun p => decide (p.1 = k)) = some (k, v) := by
  induction l with
  | nil => simp at h
  | cons a t ih =>
    rw [List.pairwise_cons] at hs
    rcases List.mem_cons.mp h with rfl | ht
    · simp [List.find?_cons]
    · have hlt := hs.1 (k, v) ht
      have hne : ¬ a.1 = k := by
        intro e; simp only at hlt; omega
      rw [List.find?_cons]
      simp only [hne, decide_False]
      exact ih hs.2 ht

theorem find_none_of_absent (l : fv_t V) (k : Int) (h : ∀ v, (k, v) ∉ l) :
    l.find? (fun p => decide (p.1 = k)) = none := by
  rw [List.find?_eq_none]
  intro p hp
  simp only [decide_eq_true_eq]
  intro e
  exact h p.2 (by rw [← e]; exact hp)

end SparseBuilder

/-! ## Claims about the decompositions -/

section Claims

open Matrix

/-- C3 (amended): in exact real arithmetic, when Gram-Schmidt meets no zero
residual column and the library solvers return factors with orthonormal
columns, `RedSVD::run` on any matrix with positive dimensions and rank ≥ 0
stores `matU_`, `matV_` with `matU_ᵗ·matU_ = I` and `matV_ᵗ·matV_ = I`, and
`RedSymEigen::run` on any square matrix `S` with positive dimension stores
`eigenVectors_` with `eigenVectors_ᵗ·eigenVectors_ = I`; each identity has size
`min(rank, rows, cols)`. -/
theorem orthonormal_factors (svd : Mat ℝ → SVDCoeffs ℝ) (eig : Mat ℝ → EigCoeffs ℝ)
    (gO gP gE : Nat → Nat → ℝ) (self : RedSVD ℝ) (selfE : RedSymEigen ℝ)
    (A : Mat ℝ) (rank : Int) (S : Mat ℝ) (rankS : Int)
    (hm : 0 < A.rows) (hn : 0 < A.cols) (hr : 0 ≤ rank)
    (hY : NoZeroResidual Real.sqrt (sampleY gO A rank))
    (hZ : NoZeroResidual Real.sqrt (sampleZ Real.sqrt gO gP A rank))
    (hU : IsIdentity ((eigenSVD svd (reducedC Real.sqrt gO gP A rank)).U.transpose.mul
      (eigenSVD svd (reducedC Real.sqrt gO gP A rank)).U) (rankDim A rank))
    (hV : IsIdentity ((eigenSVD svd (reducedC Real.sqrt gO gP A rank)).V.transpose.mul
      (eigenSVD svd (reducedC Real.sqrt gO gP A rank)).V) (rankDim A rank))
    (hSm : 0 < S.rows) (hSsq : S.rows = S.cols) (hSr : 0 ≤ rankS)
    (hYS : NoZeroResidual Real.sqrt (sampleY gE S rankS))
    (hE : IsIdentity ((eigenSolver eig (reducedB Real.sqrt gE S rankS)).eigenvectors.transpose.mul
      (eigenSolver eig (reducedB Real.sqrt gE S rankS)).eigenvectors) (rankDim S rankS)) :
    (∃ s, RedSVD.run Real.sqrt svd gO gP self A rank = some s ∧
        ((rankDim A rank : Nat) : Int) = min rank (min (A.rows : Int) (A.cols : Int)) ∧
        IsIdentity (s.matU_.transpose.mul s.matU_) (rankDim A rank) ∧
        IsIdentity (s.matV_.transpose.mul s.matV_) (rankDim A rank)) ∧
    (∃ e, RedSymEigen.run Real.sqrt eig gE selfE S rankS = some e ∧
        ((rankDim S rankS : Nat) : Int) = min rankS (min (S.rows : Int) (S.cols : Int)) ∧
        IsIdentity (e.eigenVectors_.transpose.mul e.eigenVectors_) (rankDim S rankS)) := by
  refine ⟨⟨_, redSVD_run_eq Real.sqrt svd gO gP self A rank hm hn hr, rankDim_cast A hr, ?_, ?_⟩,
    ⟨_, redSymEigen_run_eq Real.sqrt eig gE selfE S rankS hSm hSsq hSr, rankDim_cast S hSr, ?_⟩⟩
  · exact isIdentity_mul _ _ _ rfl rfl (Nat.min_self _)
      (processGramSchmidt_isIdentity _ hZ) hU
  · exact isIdentity_mul _ _ _ rfl rfl rfl (processGramSchmidt_isIdentity _ hY) hV
  · exact isIdentity_mul _ _ _ rfl rfl rfl (processGramSchmidt_isIdentity _ hYS) hE

/-- C2: in exact real arithmetic, for a matrix with positive dimensions and
`rank = min(rows, cols)`, when neither Gram-Schmidt pass meets a zero residual
column and the library returns a factorisation `C = U_c·S·V_cᵗ` of the reduced
matrix, `RedSVD::run` stores factors with `matU_·diag(matS_)·matV_ᵗ = A`. -/
theorem run_reconstructs (svd : Mat ℝ → SVDCoeffs ℝ) (gO gP : Nat → Nat → ℝ)
    (self : RedSVD ℝ) (A : Mat ℝ) (rank : Int)
    (hm : 0 < A.rows) (hn : 0 < A.cols)
    (hrank : rank = min (A.rows : Int) (A.cols : Int))
    (hY : NoZeroResidual Real.sqrt (sampleY gO A rank))
    (hZ : NoZeroResidual Real.sqrt (sampleZ Real.sqrt gO gP A rank))
    (hsvd : MatEq (reconstruct (eigenSVD svd (reducedC Real.sqrt gO gP A rank)).U
      (eigenSVD svd (reducedC Real.sqrt gO gP A rank)).S
      (eigenSVD svd (reducedC Real.sqrt gO gP A rank)).V) (reducedC Real.sqrt gO gP A rank)) :
    ∃ s, RedSVD.run Real.sqrt svd gO gP self A rank = some s ∧
      MatEq (reconstruct s.matU_ s.matS_ s.matV_) A := by
  have hr : 0 ≤ rank := by omega
  have hcast := rankDim_cast A hr
  have hrr : rankDim A rank = A.cols ∨ rankDim A rank = A.rows := by omega
  refine ⟨_, redSVD_run_eq Real.sqrt svd gO gP self A rank hm hn hr, rfl, rfl, ?_⟩
  apply (toM_ext_iff A.rows A.cols _ _).mp
  -- orthonormal bases
  have hYM := toM_gram A.cols (rankDim A rank) (basisY Real.sqrt gO A rank).val
    (processGramSchmidt_orthonormal (sampleY gO A rank) hY)
  have hZM := toM_gram A.rows (rankDim A rank) (basisZ Real.sqrt gO gP A rank).val
    (processGramSchmidt_orthonormal (sampleZ Real.sqrt gO gP A rank) hZ)
  -- the bases are combinations of the sampled columns
  obtain ⟨R1, hR1⟩ := processGramSchmidt_span Real.sqrt (sampleY gO A rank)
  obtain ⟨R2, hR2⟩ := processGramSchmidt_span Real.sqrt (sampleZ Real.sqrt gO gP A rank)
  have hYs : toM A.cols (rankDim A rank) (basisY Real.sqrt gO A rank).val
      = (toM A.rows A.cols A.val)ᵀ * (toM A.rows (rankDim A rank) gO * toM _ _ R1) := by
    refine (toM_span A.cols (rankDim A rank) (sampleY gO A rank).val
      (basisY Real.sqrt gO A rank).val R1 hR1).trans ?_
    show toM A.cols (rankDim A rank) (mulVal A.rows (fun i j => A.val j i) gO) * _ = _
    rw [toM_mulVal, toM_transpose, Matrix.mul_assoc]
  have hB : toM A.rows (rankDim A rank) (projB Real.sqrt gO A rank).val
      = toM A.rows A.cols A.val * toM A.cols (rankDim A rank) (basisY Real.sqrt gO A rank).val := by
    show toM A.rows (rankDim A rank) (mulVal A.cols A.val (basisY Real.sqrt gO A rank).val) = _
    rw [toM_mulVal]
  have hZs : toM A.rows (rankDim A rank) (basisZ Real.sqrt gO gP A rank).val
      = toM A.rows A.cols A.val * toM A.cols (rankDim A rank) (basisY Real.sqrt gO A rank).val
        * (toM (rankDim A rank) (rankDim A rank) gP * toM _ _ R2) := by
    refine (toM_span A.rows (rankDim A rank) (sampleZ Real.sqrt gO gP A rank).val
      (basisZ Real.sqrt gO gP A rank).val R2 hR2).trans ?_
    show toM A.rows (rankDim A rank)
      (mulVal (rankDim A rank) (projB Real.sqrt gO A rank).val gP) * _ = _
    rw [toM_mulVal, hB, Matrix.mul_assoc]
  -- the library factorisation of the reduced matrix
  have hC : toM (rankDim A rank) (rankDim A rank)
        (svd (reducedC Real.sqrt gO gP A rank)).u
      * toM (rankDim A rank) (rankDim A rank) (fun i j =>
          if i = j then (svd (reducedC Real.sqrt gO gP A rank)).s j else 0)
      * (toM (rankDim A rank) (rankDim A rank) (svd (reducedC Real.sqrt gO gP A rank)).v)ᵀ
      = (toM A.rows (rankDim A rank) (basisZ Real.sqrt gO gP A rank).val)ᵀ
        * toM A.rows (rankDim A rank) (projB Real.sqrt gO A rank).val := by
    have h3 := (toM_ext_iff (rankDim A rank) (rankDim A rank) _ _).mpr
      (fun i j hi hj => hsvd.2.2 i j hi hj)
    have e1 : (reconstruct (eigenSVD svd (reducedC Real.sqrt gO gP A rank)).U
        (eigenSVD svd (reducedC Real.sqrt gO gP A rank)).S
        (eigenSVD svd (reducedC Real.sqrt gO gP A rank)).V).val
        = mulVal (rankDim A rank) (mulVal (rankDim A rank)
            (svd (reducedC Real.sqrt gO gP A rank)).u
            (fun i j => if i = j then (svd (reducedC Real.sqrt gO gP A rank)).s j else 0))
            (fun i j => (svd (reducedC Real.sqrt gO gP A rank)).v j i) := by
      show mulVal (min (rankDim A rank) (rankDim A rank))
        (mulVal (min (rankDim A rank) (rankDim A rank)) _ _) _ = _
      rw [Nat.min_self]
      rfl
    have e2 : (reducedC Real.sqrt gO gP A rank).val
        = mulVal A.rows (fun i j => (basisZ Real.sqrt gO gP A rank).val j i)
            (projB Real.sqrt gO A rank).val := rfl
    rw [e1, e2, toM_mulVal, toM_mulVal, toM_mulVal,
      toM_transpose (rankDim A rank) (rankDim A rank) (svd (reducedC Real.sqrt gO gP A rank)).v,
      toM_transpose A.rows (rankDim A rank) (basisZ Real.sqrt gO gP A rank).val] at h3
    exact h3
  -- assemble
  have e3 : (reconstruct
      ((basisZ Real.sqrt gO gP A rank).mul (eigenSVD svd (reducedC Real.sqrt gO gP A rank)).U)
      (eigenSVD svd (reducedC Real.sqrt gO gP A rank)).S
      ((basisY Real.sqrt gO A rank).mul (eigenSVD svd (reducedC Real.sqrt gO gP A rank)).V)).val
      = mulVal (rankDim A rank) (mulVal (rankDim A rank)
          (mulVal (rankDim A rank) (basisZ Real.sqrt gO gP A rank).val
            (svd (reducedC Real.sqrt gO gP A rank)).u)
          (fun i j => if i = j then (svd (reducedC Real.sqrt gO gP A rank)).s j else 0))
          (fun i j => mulVal (rankDim A rank) (basisY Real.sqrt gO A rank).val
            (svd (reducedC Real.sqrt gO gP A rank)).v j i) := by
    show mulVal (min (rankDim A rank) (rankDim A rank))
      (mulVal (min (rankDim A rank) (rankDim A rank)) _ _) _ = _
    rw [Nat.min_self]
    rfl
  show toM A.rows A.cols (reconstruct _ _ _).val = toM A.rows A.cols A.val
  rw [e3, toM_mulVal, toM_mulVal, toM_mulVal,
    toM_transpose A.cols (rankDim A rank)
      (mulVal (rankDim A rank) (basisY Real.sqrt gO A rank).val
        (svd (reducedC Real.sqrt gO gP A rank)).v),
    toM_mulVal, Matrix.transpose_mul]
  have hcore := reconstruct_core hrr (toM A.rows A.cols A.val)
    (toM A.cols (rankDim A rank) (basisY Real.sqrt gO A rank).val)
    (toM A.rows (rankDim A rank) (basisZ Real.sqrt gO gP A rank).val)
    (toM A.rows (rankDim A rank) gO * toM _ _ R1)
    (toM (rankDim A rank) (rankDim A rank) gP * toM _ _ R2) hYM hZM hYs hZs
  rw [← hB, ← hC] at hcore
  rw [← hcore]
  simp only [Matrix.mul_assoc]

/-- C1: for every matrix with `m > 0` rows and `n > 0` columns and every
`rank ≥ 0`, `RedSVD::run` completes and stores `matU_` of shape `m × r'`, `matS_`
of length `r'` and `matV_` of shape `n × r'` with `r' = min(rank, m, n)`; when
`rank > min(m, n)` the shapes use `min(m, n)`. -/
theorem run_dimensions {K : Type} [Field K] (sqrt : K → K) (svd : Mat K → SVDCoeffs K)
    (gO gP : Nat → Nat → K) (self : RedSVD K) (A : Mat K) (rank : Int)
    (hm : 0 < A.rows) (hn : 0 < A.cols) (hr : 0 ≤ rank) :
    ∃ (s : RedSVD K) (r' : Nat), RedSVD.run sqrt svd gO gP self A rank = some s ∧
      (r' : Int) = min rank (min (A.rows : Int) (A.cols : Int)) ∧
      s.matU_.rows = A.rows ∧ s.matU_.cols = r' ∧ s.matS_.size = r' ∧
      s.matV_.rows = A.cols ∧ s.matV_.cols = r' ∧
      (min (A.rows : Int) (A.cols : Int) < rank → r' = min A.rows A.cols) := by
  refine ⟨_, rankDim A rank, redSVD_run_eq sqrt svd gO gP self A rank hm hn hr,
    rankDim_cast A hr, rfl, Nat.min_self _, Nat.min_self _, rfl, rfl, ?_⟩
  intro h
  have := rankDim_cast A hr
  omega

/-- C4: for every matrix with positive dimensions and every `rank ≥ 1`, with the
same random draws, `RedPCA::run` stores `scores_` equal to `U·diag(S)` in the
sense of the specification (column `j` of `U` times `S[j]`) and
`principalComponents_` equal to `V`, where `U`, `S`, `V` are what
`RedSVD::run(A, rank)` stores. -/
theorem pca_refines_svd {K : Type} [Field K] (sqrt : K → K) (svd : Mat K → SVDCoeffs K)
    (gO gP : Nat → Nat → K) (selfP : RedPCA K) (selfS : RedSVD K) (A : Mat K) (rank : Int)
    (hm : 0 < A.rows) (hn : 0 < A.cols) (hr : 1 ≤ rank) :
    ∃ (s : RedSVD K) (p : RedPCA K),
      RedSVD.run sqrt svd gO gP selfS A rank = some s ∧
      RedPCA.run sqrt svd gO gP selfP A rank = some p ∧
      MatEq p.scores_ (specScores s.matU_ s.matS_) ∧
      p.principalComponents_ = s.matV_ := by
  have hr0 : 0 ≤ rank := by omega
  refine ⟨⟨(basisZ sqrt gO gP A rank).mul (eigenSVD svd (reducedC sqrt gO gP A rank)).U,
      (eigenSVD svd (reducedC sqrt gO gP A rank)).S,
      (basisY sqrt gO A rank).mul (eigenSVD svd (reducedC sqrt gO gP A rank)).V⟩,
    ⟨(basisY sqrt gO A rank).mul (eigenSVD svd (reducedC sqrt gO gP A rank)).V,
      ((basisZ sqrt gO gP A rank).mul (eigenSVD svd (reducedC sqrt gO gP A rank)).U).mul
        (eigenSVD svd (reducedC sqrt gO gP A rank)).S.asDiagonal⟩,
    redSVD_run_eq sqrt svd gO gP selfS A rank hm hn hr0, ?_, ⟨rfl, rfl, ?_⟩, rfl⟩
  · unfold RedPCA.run
    rw [redSVD_run_eq sqrt svd gO gP RedSVD.init A rank hm hn hr0]
    simp [Mat.mul?, Mat.mul, Vec.asDiagonal, eigenSVD]
  · intro i j _ hj
    have hj' : j < min (rankDim A rank) (rankDim A rank) := hj
    show (∑ x in Finset.range (min (rankDim A rank) (rankDim A rank)),
      _ * (if x = j then _ else 0)) = _
    simp only [mul_ite, mul_zero]
    rw [Finset.sum_ite_eq' (Finset.range (min (rankDim A rank) (rankDim A rank))) j,
      if_pos (Finset.mem_range.mpr hj')]
    rfl

/-- C5: for every `RedSVD` and every `RedSymEigen` object in any state, every
matrix with zero rows or zero columns and every rank, `run` completes and leaves
the stored results exactly as they were; on freshly constructed objects all
results stay zero-sized. -/
theorem degenerate_run_keeps_state {K : Type} [Field K] (sqrt : K → K)
    (svd : Mat K → SVDCoeffs K) (eig : Mat K → EigCoeffs K) (gO gP : Nat → Nat → K)
    (self : RedSVD K) (selfE : RedSymEigen K) (A : Mat K) (rank : Int)
    (h : A.rows = 0 ∨ A.cols = 0) :
    RedSVD.run sqrt svd gO gP self A rank = some self ∧
    RedSymEigen.run sqrt eig gO selfE A rank = some selfE ∧
    (∃ s, RedSVD.run sqrt svd gO gP RedSVD.init A rank = some s ∧
      s.matU_.rows = 0 ∧ s.matU_.cols = 0 ∧ s.matS_.size = 0 ∧
      s.matV_.rows = 0 ∧ s.matV_.cols = 0) ∧
    (∃ e, RedSymEigen.run sqrt eig gO RedSymEigen.init A rank = some e ∧
      e.eigenValues_.size = 0 ∧ e.eigenVectors_.rows = 0 ∧ e.eigenVectors_.cols = 0) := by
  have h0 : A.cols = 0 ∨ A.rows = 0 := h.symm
  have hS : ∀ x : RedSVD K, RedSVD.run sqrt svd gO gP x A rank = some x := by
    intro x; unfold RedSVD.run; rw [if_pos h0]
  have hE : ∀ x : RedSymEigen K, RedSymEigen.run sqrt eig gO x A rank = some x := by
    intro x; unfold RedSymEigen.run; rw [if_pos h0]
  exact ⟨hS self, hE selfE, ⟨_, hS _, rfl, rfl, rfl, rfl, rfl⟩, ⟨_, hE _, rfl, rfl, rfl⟩⟩

/-- C6, the code at the failing input: a `RedPCA` object holding 1×1 results is
run on the 0×0 matrix; the call completes and both results are replaced by
empty matrices, so they are not retained. -/
theorem pca_degenerate_run_overwrites :
    ∃ p : RedPCA ℚ,
      RedPCA.run id (fun _ => ⟨fun _ _ => 0, fun _ => 0, fun _ _ => 0⟩)
        (fun _ _ => 1) (fun _ _ => 1)
        ⟨⟨1, 1, fun _ _ => 1⟩, ⟨1, 1, fun _ _ => 1⟩⟩ ⟨0, 0, fun _ _ => 0⟩ 1 = some p ∧
      p.principalComponents_.rows = 0 ∧ p.principalComponents_.cols = 0 ∧
      p.scores_.rows = 0 ∧ p.scores_.cols = 0 ∧
      p.principalComponents_ ≠ ⟨1, 1, fun _ _ => 1⟩ ∧ p.scores_ ≠ ⟨1, 1, fun _ _ => 1⟩ := by
  refine ⟨⟨Mat.empty, Mat.empty.mul Vec.empty.asDiagonal⟩, ?_, rfl, rfl, rfl, rfl, ?_, ?_⟩
  · simp [RedPCA.run, RedSVD.run, RedSVD.init, Mat.mul?, Mat.empty, Vec.empty, Vec.asDiagonal]
  · intro h
    have := congrArg Mat.rows h
    simp [Mat.empty] at this
  · intro h
    have := congrArg Mat.rows h
    simp [Mat.empty, Mat.mul] at this

/-- The shape theorem of `RedSVD::run` applied to a 2×3 matrix with rank 5. -/
theorem run_dimensions_witness :
    ∃ (s : RedSVD ℚ) (r' : Nat),
      RedSVD.run id (exSVD ℚ) (idCoeff ℚ) (idCoeff ℚ) RedSVD.init exMat23 5 = some s ∧
      (r' : Int) = min 5 (min (exMat23.rows : Int) (exMat23.cols : Int)) ∧
      s.matU_.rows = exMat23.rows ∧ s.matU_.cols = r' ∧ s.matS_.size = r' ∧
      s.matV_.rows = exMat23.cols ∧ s.matV_.cols = r' ∧
      (min (exMat23.rows : Int) (exMat23.cols : Int) < 5 → r' = min exMat23.rows exMat23.cols) :=
  run_dimensions id (exSVD ℚ) (idCoeff ℚ) (idCoeff ℚ) RedSVD.init exMat23 5
    (by decide) (by decide) (by decide)

/-- The comparison of `RedPCA::run` with `RedSVD::run` applied to a 2×3 matrix with
rank 1. -/
theorem pca_refines_svd_witness :
    ∃ (s : RedSVD ℚ) (p : RedPCA ℚ),
      RedSVD.run id (exSVD ℚ) (idCoeff ℚ) (idCoeff ℚ) RedSVD.init exMat23 1 = some s ∧
      RedPCA.run id (exSVD ℚ) (idCoeff ℚ) (idCoeff ℚ) RedPCA.init exMat23 1 = some p ∧
      MatEq p.scores_ (specScores s.matU_ s.matS_) ∧
      p.principalComponents_ = s.matV_ :=
  pca_refines_svd id (exSVD ℚ) (idCoeff ℚ) (idCoeff ℚ) RedPCA.init RedSVD.init exMat23 1
    (by decide) (by decide) (by decide)

/-- The no-op theorem applied to an object that holds results and a 0×3 matrix. -/
theorem degenerate_run_keeps_state_witness :
    RedSVD.run id (exSVD ℚ) (idCoeff ℚ) (idCoeff ℚ) exState exMat03 2 = some exState :=
  (degenerate_run_keeps_state id (exSVD ℚ) (exEig ℚ) (idCoeff ℚ) (idCoeff ℚ)
    exState RedSymEigen.init exMat03 2 (Or.inl rfl)).1

/-- The reconstruction theorem applied to the 2×2 identity matrix with rank 2 and
identity draws. -/
theorem run_reconstructs_witness :
    NoZeroResidual Real.sqrt (sampleY (idCoeff ℝ) exId2 2) ∧
    NoZeroResidual Real.sqrt (sampleZ Real.sqrt (idCoeff ℝ) (idCoeff ℝ) exId2 2) ∧
    ∃ s, RedSVD.run Real.sqrt (exSVD ℝ) (idCoeff ℝ) (idCoeff ℝ) RedSVD.init exId2 2 = some s ∧
      MatEq (reconstruct s.matU_ s.matS_ s.matV_) exId2 :=
  ⟨exId2_sampleY_residual, exId2_sampleZ_residual,
    run_reconstructs (exSVD ℝ) (idCoeff ℝ) (idCoeff ℝ) RedSVD.init exId2 2
      (by decide) (by decide) (by decide) exId2_sampleY_residual exId2_sampleZ_residual
      exId2_factorisation⟩

/-- The orthonormality theorem applied to the 2×2 identity matrix with rank 2. -/
theorem orthonormal_factors_witness :
    (∃ s, RedSVD.run Real.sqrt (exSVD ℝ) (idCoeff ℝ) (idCoeff ℝ) RedSVD.init exId2 2 = some s ∧
        ((rankDim exId2 2 : Nat) : Int) = min 2 (min (exId2.rows : Int) (exId2.cols : Int)) ∧
        IsIdentity (s.matU_.transpose.mul s.matU_) (rankDim exId2 2) ∧
        IsIdentity (s.matV_.transpose.mul s.matV_) (rankDim exId2 2)) ∧
    (∃ e, RedSymEigen.run Real.sqrt (exEig ℝ) (idCoeff ℝ) RedSymEigen.init exId2 2 = some e ∧
        ((rankDim exId2 2 : Nat) : Int) = min 2 (min (exId2.rows : Int) (exId2.cols : Int)) ∧
        IsIdentity (e.eigenVectors_.transpose.mul e.eigenVectors_) (rankDim exId2 2)) :=
  orthonormal_factors (exSVD ℝ) (exEig ℝ) (idCoeff ℝ) (idCoeff ℝ) (idCoeff ℝ)
    RedSVD.init RedSymEigen.init exId2 2 exId2 2
    (by decide) (by decide) (by decide) exId2_sampleY_residual exId2_sampleZ_residual
    (idCoeff_isIdentity 2) (idCoeff_isIdentity 2)
    (by decide) rfl (by decide) exId2_sampleY_residual (idCoeff_isIdentity 2)

/-- C3, counterexample: `RedSymEigen::run` on a 1×2 matrix with rank 1. The
dimensions are positive and Gram-Schmidt meets no zero residual, but the product
`Yᵗ·A` multiplies a 1×2 by a 1×2 matrix, so the call does not complete and no
eigenvectors with orthonormal columns are stored. -/
theorem symEigen_nonsquare_no_result :
    0 < exMat12.rows ∧ 0 < exMat12.cols ∧
    NoZeroResidual Real.sqrt (sampleY (idCoeff ℝ) exMat12 1) ∧
    RedSymEigen.run Real.sqrt (exEig ℝ) (idCoeff ℝ) RedSymEigen.init exMat12 1 = none ∧
    ¬ ∃ e, RedSymEigen.run Real.sqrt (exEig ℝ) (idCoeff ℝ) RedSymEigen.init exMat12 1 = some e ∧
      IsIdentity (e.eigenVectors_.transpose.mul e.eigenVectors_) (rankDim exMat12 1) := by
  have hnone : RedSymEigen.run Real.sqrt (exEig ℝ) (idCoeff ℝ) RedSymEigen.init exMat12 1
      = none := by
    simp [RedSymEigen.run, exMat12, Mat.sized?, Mat.mul?, Mat.mul, Mat.transpose,
      sampleGaussianMat, processGramSchmidt, effRank]
  refine ⟨by decide, by decide, ?_, hnone, ?_⟩
  · intro j hj
    have hj' : j < 1 := hj
    interval_cases j
    refine ⟨0, by decide, ?_⟩
    simp [gsResidual, residual, sweep, gsLoop, sampleY, exMat12, idCoeff, Mat.mul, Mat.transpose,
      mulVal, rankDim, effRank]
  · rintro ⟨e, he, -⟩
    rw [hnone] at he
    exact Option.noConfusion he

end Claims

/-! ## Claims about the file readers -/

section ReaderClaims

/-- C9 (amended): for every non-empty sequence of parsed lines, the dense
`readMatrix` produces a matrix with one row per line and as many columns `c` as
the first line has fields; row `i` holds the first `min(c, k_i)` fields of line
`i` in order, and every remaining entry `(i, j)` with `k_i ≤ j < c` is not
written: it keeps the value the matrix had after `resize`. -/
theorem readMatrix_entries {α : Type} [Zero α] (vs : List (List α)) (A : Mat α)
    (fresh : Nat → Nat → α) (hne : vs ≠ []) :
    (readMatrix vs A fresh).1.rows = vs.length ∧
    (readMatrix vs A fresh).1.cols = (vs.getD 0 []).length ∧
    ∀ i j, i < vs.length → j < (vs.getD 0 []).length →
      (j < (vs.getD i []).length →
        (vs.getD i [])[j]? = some ((readMatrix vs A fresh).1.val i j)) ∧
      ((vs.getD i []).length ≤ j →
        (readMatrix vs A fresh).1.val i j
          = (A.resize vs.length (vs.getD 0 []).length fresh).val i j) := by
  have hlen : ¬ vs.length = 0 := by
    intro h; exact hne (List.length_eq_zero.mp h)
  obtain ⟨h1, h2, h3, -⟩ := readRows_spec vs (vs.getD 0 []).length
    (A.resize vs.length (vs.getD 0 []).length fresh) vs.length
  unfold readMatrix
  simp only [if_neg hlen]
  refine ⟨by rw [h1, resize_rows], by rw [h2, resize_cols], fun i j hi hj => ⟨fun hlt => ?_, fun hge => ?_⟩⟩
  · rw [h3, if_pos ⟨hi, by omega⟩]
    generalize vs.getD i [] = row at hlt
    rw [List.getD_eq_getElem?_getD, List.getElem?_eq_getElem hlt]
    rfl
  · rw [h3, if_neg (by omega)]

/-- C10 (amended): for every non-empty sequence of parsed lines, the dense
`readMatrix` completes and writes a warning for row `i` if and only if the
number of fields of row `i` differs from that of the first row, whether it is
smaller or larger. -/
theorem readMatrix_warnings {α : Type} [Zero α] (vs : List (List α)) (A : Mat α)
    (fresh : Nat → Nat → α) (hne : vs ≠ []) (i : Nat) (hi : i < vs.length) :
    (∃ w, w ∈ (readMatrix vs A fresh).2 ∧ w.row = i + 1) ↔
      (vs.getD i []).length ≠ (vs.getD 0 []).length := by
  have hlen : ¬ vs.length = 0 := by
    intro h; exact hne (List.length_eq_zero.mp h)
  obtain ⟨-, -, -, h4⟩ := readRows_spec vs (vs.getD 0 []).length
    (A.resize vs.length (vs.getD 0 []).length fresh) vs.length
  unfold readMatrix
  simp only [if_neg hlen]
  constructor
  · rintro ⟨w, hw, hrow⟩
    obtain ⟨k, _, hne', rfl⟩ := (h4 w).mp hw
    have : k = i := by simpa using hrow
    subst this
    exact fun h => hne' h.symm
  · intro h
    exact ⟨⟨i + 1, (vs.getD i []).length, (vs.getD 0 []).length⟩,
      (h4 _).mpr ⟨i, hi, fun h' => h h'.symm, rfl⟩, rfl⟩

/-- The entry theorem of the dense reader applied to the lines `1 2` and `3`. -/
theorem readMatrix_entries_witness :
    (readMatrix exShortRows exSevens (fun _ _ => 0)).1.rows = exShortRows.length ∧
    (readMatrix exShortRows exSevens (fun _ _ => 0)).1.cols = (exShortRows.getD 0 []).length ∧
    ∀ i j, i < exShortRows.length → j < (exShortRows.getD 0 []).length →
      (j < (exShortRows.getD i []).length →
        (exShortRows.getD i [])[j]? = some ((readMatrix exShortRows exSevens (fun _ _ => 0)).1.val i j)) ∧
      ((exShortRows.getD i []).length ≤ j →
        (readMatrix exShortRows exSevens (fun _ _ => 0)).1.val i j
          = (exSevens.resize exShortRows.length (exShortRows.getD 0 []).length
              (fun _ _ => 0)).val i j) :=
  readMatrix_entries exShortRows exSevens (fun _ _ => 0) (by decide)

/-- C9, counterexample: the lines `1 2` and `3` are read into a matrix that is
already 2×2 and holds 7 everywhere; entry `(1, 1)` lies beyond the fields of the
short row and is 7 after the call, not 0. -/
theorem readMatrix_short_row_not_zero :
    exShortRows ≠ [] ∧ 1 < exShortRows.length ∧
    (exShortRows.getD 1 []).length ≤ 1 ∧ 1 < (exShortRows.getD 0 []).length ∧
    (readMatrix exShortRows exSevens (fun _ _ => 0)).1.val 1 1 = 7 ∧
    (readMatrix exShortRows exSevens (fun _ _ => 0)).1.val 1 1 ≠ 0 := by
  have h : (readMatrix exShortRows exSevens (fun _ _ => 0)).1.val 1 1 = 7 := by
    simp [readMatrix, readRow, fillRow, Mat.set, Mat.resize, exShortRows, exSevens,
      List.range_succ]
  refine ⟨by decide, by decide, by decide, by decide, h, ?_⟩
  rw [h]; norm_num

/-- The warning theorem of the dense reader applied to row 2 of the lines `1` and
`2 3`. -/
theorem readMatrix_warnings_witness :
    (∃ w, w ∈ (readMatrix exLongRows exSevens (fun _ _ => 0)).2 ∧ w.row = 1 + 1) ↔
      (exLongRows.getD 1 []).length ≠ (exLongRows.getD 0 []).length :=
  readMatrix_warnings exLongRows exSevens (fun _ _ => 0) (by decide) 1 (by decide)

/-- C10, counterexample: for the lines `1` and `2 3` the second row has more
fields than the first, and a warning for row 2 is written all the same. -/
theorem readMatrix_long_row_warned :
    exLongRows ≠ [] ∧
    (exLongRows.getD 0 []).length < (exLongRows.getD 1 []).length ∧
    (readMatrix exLongRows Mat.empty (fun _ _ => 0)).2 = [⟨2, 2, 1⟩] := by
  refine ⟨by decide, by decide, ?_⟩
  simp [readMatrix, readRow, exLongRows, List.range_succ]

/-- C7 (amended): for every list `fvs` of feature vectors, each sorted by
index with unique non-negative indices, with at least one entry overall, whose
length and whose indices plus one fit in a 32-bit `int`, `convertFV2Mat`
produces a matrix with `fvs.size()` rows and (largest index + 1) columns whose
entry `(i, k)` is the value paired with index `k` in `fvs[i]`, and 0 when
`fvs[i]` has no entry with index `k`. -/
theorem convertFV2Mat_spec {V : Type} [Zero V] (fvs : List (fv_t V)) (A0 : SMatrix V)
    (hsorted : ∀ fv ∈ fvs, fv.Pairwise (fun a b => a.1 < b.1))
    (hidx : ∀ fv ∈ fvs, ∀ p ∈ fv, 0 ≤ p.1 ∧ p.1 + 1 < 2 ^ 31)
    (hentry : ∃ fv ∈ fvs, fv ≠ [])
    (hrows : (fvs.length : Int) < 2 ^ 31) :
    (convertFV2Mat fvs A0).rows = fvs.length ∧
    (∃ mx : Int, (∃ fv ∈ fvs, ∃ p ∈ fv, p.1 = mx) ∧ (∀ fv ∈ fvs, ∀ p ∈ fv, p.1 ≤ mx) ∧
      (convertFV2Mat fvs A0).cols = mx + 1) ∧
    ∀ (i : Nat) (hi : i < fvs.length) (k : Int),
      (∀ v, (k, v) ∈ fvs[i] → (convertFV2Mat fvs A0).coeff i k = v) ∧
      ((∀ v, (k, v) ∉ fvs[i]) → (convertFV2Mat fvs A0).coeff i k = 0) := by
  obtain ⟨hv, hr, hc⟩ := insertRows_spec fvs
    (A0.resize (wrapInt32 fvs.length) (maxIDAll fvs))
  have hvecs : (convertFV2Mat fvs A0).vecs = fvs := by
    show (fvs.foldl insertRow _).vecs = fvs
    rw [hv]; rfl
  refine ⟨?_, ?_, ?_⟩
  · show (fvs.foldl insertRow _).rows = _
    rw [hr]
    exact wrapInt32_eq _ (by omega) hrows
  · obtain ⟨m1, m2, m3⟩ := maxIDFold_spec fvs hidx 0
    obtain ⟨fv, hfv, hne⟩ := hentry
    obtain ⟨q, hq⟩ := List.exists_mem_of_ne_nil fv hne
    have hpos : 0 < fvs.foldl maxIDRow 0 := by
      have := m2 fv hfv q hq
      have := (hidx fv hfv q hq).1
      omega
    have hcols : (convertFV2Mat fvs A0).cols = fvs.foldl maxIDRow 0 := by
      show (fvs.foldl insertRow _).cols = _
      rw [hc]; rfl
    rcases m3 with m3 | ⟨f, hf, p, hp, m3⟩
    · omega
    · refine ⟨p.1, ⟨f, hf, p, hp, rfl⟩, fun g hg x hx => ?_, by rw [hcols, m3]⟩
      have := m2 g hg x hx
      omega
  · intro i hi k
    have hrow : (convertFV2Mat fvs A0).vecs.getD i [] = fvs[i] := by
      rw [hvecs, List.getD_eq_getElem?_getD, List.getElem?_eq_getElem hi]; rfl
    have hs := hsorted fvs[i] (List.getElem_mem hi)
    constructor
    · intro v hmem
      unfold SMatrix.coeff
      rw [hrow, find_of_sorted _ hs k v hmem]
    · intro habs
      unfold SMatrix.coeff
      rw [hrow, find_none_of_absent _ k habs]

/-- The sparse builder theorem applied to the feature vectors of the
specification's example. -/
theorem convertFV2Mat_spec_witness :
    (convertFV2Mat exFvs exSparse).rows = exFvs.length ∧
    (∃ mx : Int, (∃ fv ∈ exFvs, ∃ p ∈ fv, p.1 = mx) ∧ (∀ fv ∈ exFvs, ∀ p ∈ fv, p.1 ≤ mx) ∧
      (convertFV2Mat exFvs exSparse).cols = mx + 1) ∧
    ∀ (i : Nat) (hi : i < exFvs.length) (k : Int),
      (∀ v, (k, v) ∈ exFvs[i] → (convertFV2Mat exFvs exSparse).coeff i k = v) ∧
      ((∀ v, (k, v) ∉ exFvs[i]) → (convertFV2Mat exFvs exSparse).coeff i k = 0) :=
  convertFV2Mat_spec exFvs exSparse (by decide) (by decide) (by decide) (by decide)

/-- The example of the specification: the feature vectors `[(0,1.0),(2,3.0)]`
and `[(1,2.0)]` give the 2×3 matrix `[[1,0,3],[0,2,0]]`. -/
theorem convertFV2Mat_example :
    (convertFV2Mat exFvs exSparse).rows = 2 ∧ (convertFV2Mat exFvs exSparse).cols = 3 ∧
    (List.range 2).map (fun i => (List.range 3).map
      (fun k => (convertFV2Mat exFvs exSparse).coeff i (k : Int))) = [[1, 0, 3], [0, 2, 0]] := by
  decide

/-- C7, counterexample: the single feature vector `[(2147483647, 1.0)]` is
sorted, has a unique non-negative index and one entry; `fv[j].first + 1`
overflows `int`, `maxID` stays 0 and the matrix gets 0 columns, not
2147483648. Likewise 2147483648 feature vectors `[(0, 1.0)]` give a row count
that does not fit in `int`. -/
theorem convertFV2Mat_index_overflow :
    ((∀ fv ∈ exMaxIndex, fv.Pairwise (fun a b => a.1 < b.1)) ∧
      (∀ fv ∈ exMaxIndex, ∀ p ∈ fv, 0 ≤ p.1) ∧
      (∃ fv ∈ exMaxIndex, fv ≠ []) ∧
      (∀ fv ∈ exMaxIndex, ∀ p ∈ fv, p.1 ≤ 2147483647) ∧
      (convertFV2Mat exMaxIndex exSparse).cols = 0 ∧
      (convertFV2Mat exMaxIndex exSparse).cols ≠ 2147483647 + 1) ∧
    (convertFV2Mat (List.replicate 2147483648 ([(0, 1)] : fv_t ℚ)) exSparse).rows
      = -2147483648 := by
  refine ⟨by decide, ?_⟩
  show (List.foldl insertRow _ _).rows = _
  rw [(insertRows_spec _ _).2.1]
  show wrapInt32 ((List.replicate 2147483648 ([(0, 1)] : fv_t ℚ)).length : Int) = _
  rw [List.length_replicate]
  decide

/-- C8, the code at the failing input: for the line `3:1 1:2 1:3 1:2`,
`readLine` removes the exact duplicate `(1, 2)` but keeps both `(1, 2)` and
`(1, 3)`, so index 1 occurs twice in the feature vector. -/
theorem readLine_keeps_repeated_index :
    readLine exRepeatedLine [] = [(1, 2), (1, 3), (3, 1)] ∧
    ¬ (readLine exRepeatedLine []).Pairwise (fun a b => a.1 ≠ b.1) := by
  decide

end ReaderClaims

end REDSVD
